import Mathlib

/-!
# Verification of the Sudoku solving engine (`solver.py`)

Shallow embedding of the backtracking Sudoku engine.  The grid is a
9×9 matrix of natural numbers (`0` = empty, `1..9` = digits, `10` is
the transient "exhausted" sentinel written by the search).  The set of
fixed (given) cells is, as in the program, a map from a row number to
the list of column numbers holding givens; looking it up at a row key
outside `0..8` raises a `KeyError` (the map in the application is a
dictionary whose keys are exactly `0..8`).

The pure helper functions (`current_col`, `current_grid`,
`pick_input_num`, `appears_after`, `find_previous_slot`,
`find_next_slot`) are embedded as Lean functions of the same names.
The two mutating loops of `solve_sudoku` together with the loop of
`modify_previous_slots` are embedded as a small-step machine: a
`Phase` records the program counter (forward scan / backtracking step
of the `while current_num > 9` loop / re-fill step of
`modify_previous_slots`), and `step` performs one loop iteration.
`solve_sudoku` iterates `step` with explicit fuel and yields either
the final grid, a `KeyError` (with the offending row key) or fuel
exhaustion.
-/

namespace Sudoku

/-- A 9×9 grid of cell values (`solver.py` represents it as
`list[list[int]]`; rows and columns are always indexed with `0..8`). -/
def Grid : Type := Fin 9 → Fin 9 → Nat

/-- The `fixed_num_locations` structure: for each row number `0..8`,
the list of column numbers that hold a given.  (The application
constructs a dict with exactly the keys `0..8`.) -/
def FixedMap : Type := Fin 9 → List Nat

/-- Errors an execution of the engine can raise or report:
a Python `KeyError` on `fixed_num_locations[row]` for a row key
outside `0..8` (the key is recorded), or exhaustion of the fuel that
bounds the embedded `while` loop of `solve_sudoku`. -/
inductive SolveErr : Type where
  | keyError : Int → SolveErr
  | outOfFuel : SolveErr
deriving DecidableEq, Repr

/-- The row list `puzzle[row_num]` used by `pick_input_num`
(`chosen_num in puzzle[row_num]`). -/
def rowOf (puzzle : Grid) (row : Fin 9) : List Nat :=
  (List.finRange 9).map fun c => puzzle row c

/-- `current_col` (solver.py lines 1–17): the list of the values of
column `col_num`, built row by row. -/
def current_col (puzzle : Grid) (col_num : Fin 9) : List Nat :=
  (List.finRange 9).map fun r => puzzle r col_num

/-- `current_grid` (solver.py lines 20–41): the list of the values of
the 3×3 box containing `(row_num, col_num)`; the box's top-left corner
is `(row_num - row_num % 3, col_num - col_num % 3)` and the values are
collected row-major. -/
def current_grid (puzzle : Grid) (row_num col_num : Fin 9) : List Nat :=
  ((List.finRange 3).map fun i =>
    (List.finRange 3).map fun j =>
      puzzle ⟨row_num.val - row_num.val % 3 + i.val, by
              have h1 := row_num.isLt; have h2 := i.isLt; omega⟩
             ⟨col_num.val - col_num.val % 3 + j.val, by
              have h1 := col_num.isLt; have h2 := j.isLt; omega⟩).flatten

/-- Largest element of a list of naturals (`0` for the empty list);
only used to justify termination of the scan in `pick_input_num`. -/
def listMax : List Nat → Nat
  | [] => 0
  | a :: l => max a (listMax l)

theorem le_listMax {a : Nat} {l : List Nat} (h : a ∈ l) : a ≤ listMax l := by
  induction l with
  | nil => cases h
  | cons b l ih =>
    rcases List.mem_cons.mp h with rfl | h'
    · exact Nat.le_max_left _ _
    · exact Nat.le_trans (ih h') (Nat.le_max_right _ _)

/-- The scanning loop of `pick_input_num`, recursing on a step
countdown so that the definition is structurally recursive (the
countdown chosen in `pickLoop` is provably sufficient: once the
candidate exceeds every list element the loop condition is false, so
the base case returns exactly what the `while` loop would). -/
def pickLoopAux (rowL colL gridL : List Nat) : Nat → Nat → Nat
  | 0, chosen_num => chosen_num
  | steps + 1, chosen_num =>
    if chosen_num ∈ rowL ∨ chosen_num ∈ colL ∨ chosen_num ∈ gridL then
      pickLoopAux rowL colL gridL steps (chosen_num + 1)
    else
      chosen_num

/-- The scanning loop of `pick_input_num` (solver.py line 69–70):
`while chosen_num in puzzle[row_num] or chosen_num in col or
chosen_num in grid: chosen_num += 1`. -/
def pickLoop (rowL colL gridL : List Nat) (chosen_num : Nat) : Nat :=
  pickLoopAux rowL colL gridL
    (listMax (rowL ++ colL ++ gridL) + 1 - chosen_num) chosen_num

/-- `pick_input_num` (solver.py lines 44–72): if `chosen_num < 10`,
compute the column and box lists and scan upward until the candidate
is absent from row, column and box; otherwise return `chosen_num`
unchanged. -/
def pick_input_num (puzzle : Grid) (row_num col_num : Fin 9)
    (chosen_num : Nat := 1) : Nat :=
  if chosen_num < 10 then
    pickLoop (rowOf puzzle row_num) (current_col puzzle col_num)
      (current_grid puzzle row_num col_num) chosen_num
  else
    chosen_num

/-- `appears_after` (solver.py lines 75–96): whether the input slot
appears strictly after the target slot in row-major order. -/
def appears_after (input_row input_col target_row target_col : Nat) : Bool :=
  if input_row > target_row then
    true
  else if input_row = target_row then
    if input_col > target_col then true else false
  else
    false

/-- The column update of the loop body of `find_previous_slot`
(solver.py line 117): `col_num = (col_num + 8) % 9`. -/
def stepPrevCol (col_num : Fin 9) : Fin 9 :=
  ⟨(col_num.val + 8) % 9, Nat.mod_lt _ (by omega)⟩

/-- The row update of the loop body of `find_previous_slot`
(solver.py lines 119–120): `if col_num == 8: row_num -= 1`. -/
def stepPrevRow (row_num : Int) (col_num : Fin 9) : Int :=
  if (stepPrevCol col_num).val = 8 then row_num - 1 else row_num

/-- The loop of `find_previous_slot`, recursing on a step countdown
so that the definition is structurally recursive.  Each iteration
moves one slot backwards in row-major order, so the countdown chosen
in `find_previous_slot` is provably sufficient and the base case is
never reached from a row index in `0..8`. -/
def findPrevAux (fixed_num_locations : FixedMap) :
    Nat → Int → Fin 9 → Except SolveErr (Fin 9 × Fin 9)
  | 0, row_num, col_num => .error (.keyError (stepPrevRow row_num col_num))
  | steps + 1, row_num, col_num =>
    if h : 0 ≤ stepPrevRow row_num col_num ∧
        stepPrevRow row_num col_num < 9 then
      if (stepPrevCol col_num).val ∈
          fixed_num_locations ⟨(stepPrevRow row_num col_num).toNat, by omega⟩ then
        findPrevAux fixed_num_locations steps (stepPrevRow row_num col_num)
          (stepPrevCol col_num)
      else
        .ok (⟨(stepPrevRow row_num col_num).toNat, by omega⟩,
             stepPrevCol col_num)
    else
      .error (.keyError (stepPrevRow row_num col_num))

/-- `find_previous_slot` (solver.py lines 99–125): step to the
previous slot (column −1, wrapping to column 8 of the previous row),
repeating while the slot holds a given.  The membership test indexes
`fixed_num_locations[row_num]`, which raises `KeyError` for a row key
outside `0..8`. -/
def find_previous_slot (fixed_num_locations : FixedMap) (row_num : Int)
    (col_num : Fin 9) : Except SolveErr (Fin 9 × Fin 9) :=
  findPrevAux fixed_num_locations ((9 * row_num + col_num.val).toNat + 1)
    row_num col_num

/-- The column update of the loop body of `find_next_slot`
(solver.py line 145): `col_num = (col_num + 1) % 9`. -/
def stepNextCol (col_num : Fin 9) : Fin 9 :=
  ⟨(col_num.val + 1) % 9, Nat.mod_lt _ (by omega)⟩

/-- The row update of the loop body of `find_next_slot`
(solver.py lines 147–148): `if col_num == 0: row_num += 1`. -/
def stepNextRow (row_num : Int) (col_num : Fin 9) : Int :=
  if (stepNextCol col_num).val = 0 then row_num + 1 else row_num

/-- The loop of `find_next_slot`, recursing on a step countdown so
that the definition is structurally recursive.  Each iteration moves
one slot forwards in row-major order, so the countdown chosen in
`find_next_slot` is provably sufficient and the base case is never
reached from a row index in `0..8`. -/
def findNextAux (fixed_num_locations : FixedMap) :
    Nat → Int → Fin 9 → Except SolveErr (Fin 9 × Fin 9)
  | 0, row_num, col_num => .error (.keyError (stepNextRow row_num col_num))
  | steps + 1, row_num, col_num =>
    if h : 0 ≤ stepNextRow row_num col_num ∧
        stepNextRow row_num col_num < 9 then
      if (stepNextCol col_num).val ∈
          fixed_num_locations ⟨(stepNextRow row_num col_num).toNat, by omega⟩ then
        findNextAux fixed_num_locations steps (stepNextRow row_num col_num)
          (stepNextCol col_num)
      else
        .ok (⟨(stepNextRow row_num col_num).toNat, by omega⟩,
             stepNextCol col_num)
    else
      .error (.keyError (stepNextRow row_num col_num))

/-- `find_next_slot` (solver.py lines 128–153): step to the next slot
(column +1, wrapping to column 0 of the next row), repeating while the
slot holds a given; `KeyError` for a row key outside `0..8`. -/
def find_next_slot (fixed_num_locations : FixedMap) (row_num : Int)
    (col_num : Fin 9) : Except SolveErr (Fin 9 × Fin 9) :=
  findNextAux fixed_num_locations ((81 - (9 * row_num + col_num.val)).toNat + 1)
    row_num col_num

/-- Write a single cell of the grid (`puzzle[row][col] = value`). -/
def setCell (puzzle : Grid) (row col : Fin 9) (v : Nat) : Grid :=
  fun r c => if r = row ∧ c = col then v else puzzle r c

/-- Program counter of the engine's loops (solver.py lines 156–235):

* `forward k` — the nested `for` loops of `solve_sudoku` are about to
  process the `k`-th cell, `k = 9*row + index` (`k = 81` means both
  loops are finished and `solve_sudoku` returns);
* `back k r c` — inside `while current_num > 9` with the current slot
  `(r, c)` and stuck position `k` (the `for` loops' cell), about to
  call `find_previous_slot` (lines 220–227);
* `refill k r c num` — inside the loop of `modify_previous_slots`
  (lines 181–193) with `current_row = r`, `current_slot = c`,
  `current_num = num` and end slot `k`. -/
inductive Phase : Type where
  | forward : Nat → Phase
  | back : Nat → Fin 9 → Fin 9 → Phase
  | refill : Nat → Fin 9 → Fin 9 → Nat → Phase
deriving DecidableEq, Repr

/-- A machine state: the mutable `puzzle` plus the program counter. -/
structure SState : Type where
  grid : Grid
  ph : Phase

/-- Row of the `k`-th cell in the row-major scan of `solve_sudoku`'s
`for` loops. -/
def cellRow (k : Nat) (h : k < 81) : Fin 9 := ⟨k / 9, by omega⟩

/-- Column of the `k`-th cell in the row-major scan. -/
def cellCol (k : Nat) (_h : k < 81) : Fin 9 := ⟨k % 9, by omega⟩

/-- One iteration of the body of `solve_sudoku`'s `for` loops
(solver.py lines 211–218) at cell `k`: read the slot, fill it with
`pick_input_num` if it is 0, re-read `current_num`, and either enter
`while current_num > 9` or move to the next cell. -/
def stepForward (g : Grid) (k : Nat) (h : k < 81) : SState :=
  if g (cellRow k h) (cellCol k h) = 0 then
    if setCell g (cellRow k h) (cellCol k h)
        (pick_input_num g (cellRow k h) (cellCol k h) 1)
        (cellRow k h) (cellCol k h) > 9 then
      ⟨setCell g (cellRow k h) (cellCol k h)
        (pick_input_num g (cellRow k h) (cellCol k h) 1),
       .back k (cellRow k h) (cellCol k h)⟩
    else
      ⟨setCell g (cellRow k h) (cellCol k h)
        (pick_input_num g (cellRow k h) (cellCol k h) 1),
       .forward (k + 1)⟩
  else
    if g (cellRow k h) (cellCol k h) > 9 then
      ⟨g, .back k (cellRow k h) (cellCol k h)⟩
    else
      ⟨g, .forward (k + 1)⟩

/-- One iteration of `while current_num > 9` (solver.py lines
220–231): step to the previous slot, re-pick from its value + 1,
write the result, and either enter the re-fill loop of
`modify_previous_slots` (when the new number is valid) or stay in
backtracking. -/
def stepBack (fixed_num_locations : FixedMap) (g : Grid) (k : Nat)
    (r c : Fin 9) : Except SolveErr SState :=
  match find_previous_slot fixed_num_locations (r.val : Int) c with
  | .error e => .error e
  | .ok (r2, c2) =>
    if pick_input_num g r2 c2 (g r2 c2 + 1) < 10 then
      .ok ⟨setCell g r2 c2 (pick_input_num g r2 c2 (g r2 c2 + 1)),
           .refill k r2 c2 (pick_input_num g r2 c2 (g r2 c2 + 1))⟩
    else
      .ok ⟨setCell g r2 c2 (pick_input_num g r2 c2 (g r2 c2 + 1)),
           .back k r2 c2⟩

/-- One iteration of the loop of `modify_previous_slots` (solver.py
lines 181–195, invoked at line 231 with `end = (k / 9, k % 9)`),
followed by the re-check of `while current_num > 9` in `solve_sudoku`
when the loop stops: with a valid `num`, move to the next slot; stop
at the `break` when it lies after the end slot (the `while` loop then
exits and the `for` loops move on), otherwise pick a fresh number for
it, writing it only when it is valid.  With `num ≥ 10` the loop stops
and `solve_sudoku` re-enters `while current_num > 9` at the returned
slot. -/
def stepRefill (fixed_num_locations : FixedMap) (g : Grid) (k : Nat)
    (r c : Fin 9) (num : Nat) : Except SolveErr SState :=
  if num < 10 then
    match find_next_slot fixed_num_locations (r.val : Int) c with
    | .error e => .error e
    | .ok (r2, c2) =>
      if appears_after r2.val c2.val (k / 9) (k % 9) then
        .ok ⟨g, .forward (k + 1)⟩
      else
        if pick_input_num g r2 c2 1 < 10 then
          .ok ⟨setCell g r2 c2 (pick_input_num g r2 c2 1),
               .refill k r2 c2 (pick_input_num g r2 c2 1)⟩
        else
          .ok ⟨g, .refill k r2 c2 (pick_input_num g r2 c2 1)⟩
  else
    .ok ⟨g, .back k r c⟩

/-- One iteration of the engine's loops (see `Phase` for the mapping
to source lines). -/
def step (fixed_num_locations : FixedMap) (s : SState) :
    Except SolveErr SState :=
  match s.ph with
  | .forward k =>
    if h : k < 81 then .ok (stepForward s.grid k h) else .ok s
  | .back k r c => stepBack fixed_num_locations s.grid k r c
  | .refill k r c num => stepRefill fixed_num_locations s.grid k r c num

/-- Whether the machine has finished (`solve_sudoku`'s `for` loops
have processed all 81 cells). -/
def isDone (s : SState) : Bool :=
  match s.ph with
  | .forward k => 81 ≤ k
  | _ => false

/-- Iterate `step` at most `fuel` times, stopping at a finished state. -/
def runAux (fixed_num_locations : FixedMap) :
    Nat → SState → Except SolveErr SState
  | 0, _ => .error .outOfFuel
  | fuel + 1, s =>
    if isDone s then .ok s
    else
      match step fixed_num_locations s with
      | .error e => .error e
      | .ok s2 => runAux fixed_num_locations fuel s2

/-- `solve_sudoku` (solver.py lines 198–235): run the engine from the
first cell and return the final (mutated) grid.  `fuel` bounds the
number of loop iterations; Python raises `KeyError` where this
returns `.error (.keyError ...)`, and loops where every `fuel` yields
`.error .outOfFuel`. -/
def solve_sudoku (puzzle : Grid) (fixed_num_locations : FixedMap)
    (fuel : Nat) : Except SolveErr Grid :=
  match runAux fixed_num_locations fuel ⟨puzzle, .forward 0⟩ with
  | .error e => .error e
  | .ok s => .ok s.grid

/-- `n`-fold iteration of `step` (used to express reachability of
intermediate states of a run). -/
def stepN (fixed_num_locations : FixedMap) :
    Nat → SState → Except SolveErr SState
  | 0, s => .ok s
  | n + 1, s =>
    match step fixed_num_locations s with
    | .error e => .error e
    | .ok s2 => stepN fixed_num_locations n s2

/-! ## Derived notions used by the specification claims -/

/-- Row-major index of a cell, `0..80`. -/
def posOf (r c : Fin 9) : Nat := 9 * r.val + c.val

/-- A slot is editable when its column is not recorded among the fixed
columns of its row. -/
def Editable (fixed_num_locations : FixedMap) (r c : Fin 9) : Prop :=
  c.val ∉ fixed_num_locations r

instance (F : FixedMap) (r c : Fin 9) : Decidable (Editable F r c) := by
  unfold Editable; infer_instance

/-- Precondition of `Solve` (spec §6): all cell values lie in `0..9`. -/
def cellsInRange (P : Grid) : Prop := ∀ r c : Fin 9, P r c ≤ 9

instance (P : Grid) : Decidable (cellsInRange P) := by
  unfold cellsInRange; infer_instance

/-- Precondition of `Solve` (spec §6): every fixed cell holds a given
in `1..9`. -/
def fixedGivens (P : Grid) (F : FixedMap) : Prop :=
  ∀ r c : Fin 9, ¬ Editable F r c → 1 ≤ P r c

instance (P : Grid) (F : FixedMap) : Decidable (fixedGivens P F) := by
  unfold fixedGivens; infer_instance

/-- Two cells share a constraint unit: same row, same column, or same
3×3 box (boxes identified by their top-left corner
`(r − r % 3, c − c % 3)`, as in the program). -/
def sameUnit (r c r2 c2 : Fin 9) : Prop :=
  r = r2 ∨ c = c2 ∨
    (r.val - r.val % 3 = r2.val - r2.val % 3 ∧
     c.val - c.val % 3 = c2.val - c2.val % 3)

instance (r c r2 c2 : Fin 9) : Decidable (sameUnit r c r2 c2) := by
  unfold sameUnit; infer_instance

/-- No two distinct cells of a common unit hold the same digit `1..9`
(cells holding `0` or a sentinel are unconstrained). -/
def consistent (G : Grid) : Prop :=
  ∀ r c r2 c2 : Fin 9, sameUnit r c r2 c2 → ¬(r = r2 ∧ c = c2) →
    1 ≤ G r c → G r c ≤ 9 → G r c ≠ G r2 c2

instance (G : Grid) : Decidable (consistent G) := by
  unfold consistent; infer_instance

/-- Cell index inside a box: box coordinate `b` and offset `i`,
both in `0..2`. -/
def boxIdx (b i : Fin 3) : Fin 9 :=
  ⟨3 * b.val + i.val, by have h1 := b.isLt; have h2 := i.isLt; omega⟩

/-- The solved-grid postcondition: every row, every column and every
3×3 box contains each digit `1..9` exactly once. -/
def validSolution (G : Grid) : Prop :=
  ∀ d : Nat, 1 ≤ d → d ≤ 9 →
    (∀ r : Fin 9, ∃! c : Fin 9, G r c = d) ∧
    (∀ c : Fin 9, ∃! r : Fin 9, G r c = d) ∧
    (∀ br bc : Fin 3, ∃! p : Fin 3 × Fin 3,
      G (boxIdx br p.1) (boxIdx bc p.2) = d)

/-- Build a grid from a list of rows (scaffolding for concrete runs;
missing entries default to `0`). -/
def mkGrid (l : List (List Nat)) : Grid :=
  fun r c => (l.getD r.val []).getD c.val 0

/-! ## Basic lemmas about cells and positions -/

theorem posOf_lt (r c : Fin 9) : posOf r c < 81 := by
  have h1 := r.isLt; have h2 := c.isLt
  unfold posOf; omega

theorem posOf_inj {r c r2 c2 : Fin 9} (h : posOf r c = posOf r2 c2) :
    r = r2 ∧ c = c2 := by
  have h1 := r.isLt; have h2 := c.isLt
  have h3 := r2.isLt; have h4 := c2.isLt
  unfold posOf at h
  constructor <;> (apply Fin.ext; omega)

theorem setCell_self (g : Grid) (r c : Fin 9) (v : Nat) :
    setCell g r c v r c = v := by
  unfold setCell
  simp

theorem setCell_ne (g : Grid) (r c : Fin 9) (v : Nat) {r2 c2 : Fin 9}
    (h : ¬(r2 = r ∧ c2 = c)) : setCell g r c v r2 c2 = g r2 c2 := by
  unfold setCell
  simp [h]

theorem setCell_ne_pos (g : Grid) (r c : Fin 9) (v : Nat) {r2 c2 : Fin 9}
    (h : posOf r2 c2 ≠ posOf r c) : setCell g r c v r2 c2 = g r2 c2 := by
  apply setCell_ne
  intro ⟨h1, h2⟩
  exact h (by rw [h1, h2])

/-! ## Membership in the extracted row, column and box lists -/

theorem mem_rowOf {g : Grid} {r : Fin 9} {v : Nat} :
    v ∈ rowOf g r ↔ ∃ c : Fin 9, g r c = v := by
  simp [rowOf]

theorem mem_current_col {g : Grid} {c : Fin 9} {v : Nat} :
    v ∈ current_col g c ↔ ∃ r : Fin 9, g r c = v := by
  simp [current_col]

theorem mem_current_grid {g : Grid} {r c : Fin 9} {v : Nat} :
    v ∈ current_grid g r c ↔ ∃ i j : Fin 3,
      g ⟨r.val - r.val % 3 + i.val, by
          have h1 := r.isLt; have h2 := i.isLt; omega⟩
        ⟨c.val - c.val % 3 + j.val, by
          have h1 := c.isLt; have h2 := j.isLt; omega⟩ = v := by
  simp [current_grid, List.mem_flatten, List.mem_map]

theorem self_mem_rowOf (g : Grid) (r c : Fin 9) : g r c ∈ rowOf g r :=
  mem_rowOf.mpr ⟨c, rfl⟩

theorem self_mem_current_col (g : Grid) (r c : Fin 9) :
    g r c ∈ current_col g c :=
  mem_current_col.mpr ⟨r, rfl⟩

theorem mem_current_grid_of_sameBox (g : Grid) {r c r2 c2 : Fin 9}
    (hr : r2.val - r2.val % 3 = r.val - r.val % 3)
    (hc : c2.val - c2.val % 3 = c.val - c.val % 3) :
    g r2 c2 ∈ current_grid g r c := by
  apply mem_current_grid.mpr
  have h1 := r.isLt; have h2 := c.isLt
  have h3 := r2.isLt; have h4 := c2.isLt
  refine ⟨⟨r2.val % 3, by omega⟩, ⟨c2.val % 3, by omega⟩, ?_⟩
  have hre : (⟨r.val - r.val % 3 + r2.val % 3, by omega⟩ : Fin 9) = r2 := by
    apply Fin.ext; simp; omega
  have hce : (⟨c.val - c.val % 3 + c2.val % 3, by omega⟩ : Fin 9) = c2 := by
    apply Fin.ext; simp; omega
  rw [hre, hce]

/-! ## Properties of `pick_input_num` -/

theorem pickLoopAux_ge (rowL colL gridL : List Nat) :
    ∀ (steps chosen : Nat), chosen ≤ pickLoopAux rowL colL gridL steps chosen := by
  intro steps
  induction steps with
  | zero =>
    intro chosen
    exact Nat.le_refl _
  | succ n ih =>
    intro chosen
    unfold pickLoopAux
    split
    · exact Nat.le_trans (by omega) (ih (chosen + 1))
    · exact Nat.le_refl _

theorem pickLoopAux_not_mem (rowL colL gridL : List Nat) :
    ∀ (steps chosen : Nat),
      listMax (rowL ++ colL ++ gridL) < steps + chosen →
      pickLoopAux rowL colL gridL steps chosen ∉ rowL ∧
      pickLoopAux rowL colL gridL steps chosen ∉ colL ∧
      pickLoopAux rowL colL gridL steps chosen ∉ gridL := by
  intro steps
  induction steps with
  | zero =>
    intro chosen hb
    unfold pickLoopAux
    have hgt : ∀ x ∈ rowL ++ colL ++ gridL, x < chosen := by
      intro x hx
      have := le_listMax hx
      omega
    refine ⟨fun hmem => ?_, fun hmem => ?_, fun hmem => ?_⟩
    · have := hgt chosen
        (List.mem_append.mpr (Or.inl (List.mem_append.mpr (Or.inl hmem))))
      omega
    · have := hgt chosen
        (List.mem_append.mpr (Or.inl (List.mem_append.mpr (Or.inr hmem))))
      omega
    · have := hgt chosen (List.mem_append.mpr (Or.inr hmem))
      omega
  | succ n ih =>
    intro chosen hb
    unfold pickLoopAux
    split
    · exact ih (chosen + 1) (by omega)
    · rename_i hx
      push_neg at hx
      exact hx

theorem pickLoopAux_min (rowL colL gridL : List Nat) :
    ∀ (steps chosen d : Nat), chosen ≤ d →
      d < pickLoopAux rowL colL gridL steps chosen →
      d ∈ rowL ∨ d ∈ colL ∨ d ∈ gridL := by
  intro steps
  induction steps with
  | zero =>
    intro chosen d hd hlt
    unfold pickLoopAux at hlt
    omega
  | succ n ih =>
    intro chosen d hd hlt
    unfold pickLoopAux at hlt
    split at hlt
    · rcases Nat.eq_or_lt_of_le hd with rfl | hgt
      · assumption
      · exact ih (chosen + 1) d hgt hlt
    · omega

theorem pickLoopAux_le_of_not_mem (rowL colL gridL : List Nat)
    {stop : Nat} (hstop : stop ∉ rowL ∧ stop ∉ colL ∧ stop ∉ gridL) :
    ∀ (steps chosen : Nat), chosen ≤ stop →
      pickLoopAux rowL colL gridL steps chosen ≤ stop := by
  intro steps
  induction steps with
  | zero =>
    intro chosen hle
    exact hle
  | succ n ih =>
    intro chosen hle
    unfold pickLoopAux
    split
    · rename_i hx
      apply ih
      rcases Nat.eq_or_lt_of_le hle with rfl | hgt
      · exfalso
        rcases hx with h | h | h
        · exact hstop.1 h
        · exact hstop.2.1 h
        · exact hstop.2.2 h
      · omega
    · exact hle

theorem pickLoop_ge (rowL colL gridL : List Nat) (chosen : Nat) :
    chosen ≤ pickLoop rowL colL gridL chosen :=
  pickLoopAux_ge rowL colL gridL _ chosen

theorem pickLoop_not_mem (rowL colL gridL : List Nat) (chosen : Nat) :
    pickLoop rowL colL gridL chosen ∉ rowL ∧
    pickLoop rowL colL gridL chosen ∉ colL ∧
    pickLoop rowL colL gridL chosen ∉ gridL :=
  pickLoopAux_not_mem rowL colL gridL _ chosen (by omega)

theorem pickLoop_min (rowL colL gridL : List Nat) (chosen : Nat) :
    ∀ d, chosen ≤ d → d < pickLoop rowL colL gridL chosen →
      d ∈ rowL ∨ d ∈ colL ∨ d ∈ gridL := by
  intro d hd hlt
  exact pickLoopAux_min rowL colL gridL _ chosen d hd hlt

theorem pickLoop_le_of_not_mem (rowL colL gridL : List Nat)
    {stop : Nat} (hstop : stop ∉ rowL ∧ stop ∉ colL ∧ stop ∉ gridL) :
    ∀ chosen, chosen ≤ stop → pickLoop rowL colL gridL chosen ≤ stop :=
  fun chosen hle => pickLoopAux_le_of_not_mem rowL colL gridL hstop _ chosen hle

theorem pick_ge (g : Grid) (r c : Fin 9) (chosen : Nat) :
    chosen ≤ pick_input_num g r c chosen := by
  unfold pick_input_num
  split
  · exact pickLoop_ge _ _ _ _
  · exact Nat.le_refl _

theorem pick_not_mem_of_lt10 {g : Grid} {r c : Fin 9} {chosen : Nat}
    (h : pick_input_num g r c chosen < 10) :
    pick_input_num g r c chosen ∉ rowOf g r ∧
    pick_input_num g r c chosen ∉ current_col g c ∧
    pick_input_num g r c chosen ∉ current_grid g r c := by
  unfold pick_input_num at h ⊢
  split at h
  · rw [if_pos (by assumption)]
    exact pickLoop_not_mem _ _ _ _
  · omega

/-! ## Properties of the slot navigators -/

theorem stepPrev_pos (row : Int) (col : Fin 9) :
    9 * stepPrevRow row col + ((stepPrevCol col).val : Int) =
      9 * row + col.val - 1 := by
  have hc := col.isLt
  simp only [stepPrevRow, stepPrevCol, Fin.val_mk]
  split <;> omega

theorem stepNext_pos (row : Int) (col : Fin 9) :
    9 * stepNextRow row col + ((stepNextCol col).val : Int) =
      9 * row + col.val + 1 := by
  have hc := col.isLt
  simp only [stepNextRow, stepNextCol, Fin.val_mk]
  split <;> omega

theorem findPrevAux_ok (F : FixedMap) :
    ∀ (steps : Nat) (row : Int) (col : Fin 9),
      (9 * row + col.val).toNat < steps →
      ∀ r2 c2 : Fin 9, findPrevAux F steps row col = .ok (r2, c2) →
        c2.val ∉ F r2 ∧
        9 * (r2.val : Int) + c2.val < 9 * row + col.val ∧
        (∀ r3 c3 : Fin 9, 9 * (r2.val : Int) + c2.val < 9 * r3.val + c3.val →
          9 * (r3.val : Int) + c3.val < 9 * row + col.val → c3.val ∈ F r3) := by
  intro steps
  induction steps with
  | zero =>
    intro row col hb
    exact absurd hb (by omega)
  | succ n ih =>
    intro row col hb r2 c2 hok
    have hstep := stepPrev_pos row col
    have hcv := (stepPrevCol col).isLt
    unfold findPrevAux at hok
    split at hok
    · rename_i h
      split at hok
      · -- the stepped-to slot holds a given: the loop continues
        rename_i hmem
        obtain ⟨ih1, ih2, ih3⟩ := ih (stepPrevRow row col) (stepPrevCol col)
          (by omega) r2 c2 hok
        refine ⟨ih1, by omega, ?_⟩
        intro r3 c3 hgt hlt
        by_cases hcase : 9 * (r3.val : Int) + c3.val <
            9 * stepPrevRow row col + ((stepPrevCol col).val : Int)
        · exact ih3 r3 c3 hgt hcase
        · -- `(r3, c3)` is exactly the slot stepped to
          have hr3 := r3.isLt; have hc3 := c3.isLt
          have h3r : r3 = ⟨(stepPrevRow row col).toNat, by omega⟩ := by
            apply Fin.ext
            simp only [Fin.val_mk]
            omega
          have h3c : c3.val = (stepPrevCol col).val := by omega
          rw [h3r, h3c]
          exact hmem
      · -- the stepped-to slot is editable: it is returned
        rename_i hmem
        simp only [Except.ok.injEq, Prod.mk.injEq] at hok
        obtain ⟨h1, h2⟩ := hok
        subst h1; subst h2
        refine ⟨hmem, by simp only [Fin.val_mk]; omega, ?_⟩
        intro r3 c3 hgt hlt
        have hr3 := r3.isLt; have hc3 := c3.isLt
        simp only [Fin.val_mk] at hgt
        exfalso
        omega
    · exact absurd hok (by simp)

theorem find_previous_slot_ok (F : FixedMap) (row : Int) (col : Fin 9) :
    ∀ r2 c2 : Fin 9, find_previous_slot F row col = .ok (r2, c2) →
      c2.val ∉ F r2 ∧
      9 * (r2.val : Int) + c2.val < 9 * row + col.val ∧
      (∀ r3 c3 : Fin 9, 9 * (r2.val : Int) + c2.val < 9 * r3.val + c3.val →
        9 * (r3.val : Int) + c3.val < 9 * row + col.val → c3.val ∈ F r3) :=
  fun r2 c2 hok =>
    findPrevAux_ok F _ row col (by omega) r2 c2 hok

theorem findNextAux_ok (F : FixedMap) :
    ∀ (steps : Nat) (row : Int) (col : Fin 9),
      (81 - (9 * row + col.val)).toNat < steps →
      ∀ r2 c2 : Fin 9, findNextAux F steps row col = .ok (r2, c2) →
        c2.val ∉ F r2 ∧
        9 * row + col.val < 9 * (r2.val : Int) + c2.val ∧
        (∀ r3 c3 : Fin 9, 9 * (row : Int) + col.val < 9 * r3.val + c3.val →
          9 * (r3.val : Int) + c3.val < 9 * r2.val + c2.val → c3.val ∈ F r3) := by
  intro steps
  induction steps with
  | zero =>
    intro row col hb
    exact absurd hb (by omega)
  | succ n ih =>
    intro row col hb r2 c2 hok
    have hstep := stepNext_pos row col
    have hcv := (stepNextCol col).isLt
    have hc := col.isLt
    unfold findNextAux at hok
    split at hok
    · rename_i h
      split at hok
      · rename_i hmem
        obtain ⟨ih1, ih2, ih3⟩ := ih (stepNextRow row col) (stepNextCol col)
          (by omega) r2 c2 hok
        refine ⟨ih1, by omega, ?_⟩
        intro r3 c3 hgt hlt
        by_cases hcase : 9 * stepNextRow row col +
            ((stepNextCol col).val : Int) < 9 * (r3.val : Int) + c3.val
        · exact ih3 r3 c3 hcase hlt
        · have hr3 := r3.isLt; have hc3 := c3.isLt
          have h3r : r3 = ⟨(stepNextRow row col).toNat, by omega⟩ := by
            apply Fin.ext
            simp only [Fin.val_mk]
            omega
          have h3c : c3.val = (stepNextCol col).val := by omega
          rw [h3r, h3c]
          exact hmem
      · rename_i hmem
        simp only [Except.ok.injEq, Prod.mk.injEq] at hok
        obtain ⟨h1, h2⟩ := hok
        subst h1; subst h2
        refine ⟨hmem, by simp only [Fin.val_mk]; omega, ?_⟩
        intro r3 c3 hgt hlt
        have hr3 := r3.isLt; have hc3 := c3.isLt
        simp only [Fin.val_mk] at hlt
        exfalso
        omega
    · exact absurd hok (by simp)

theorem find_next_slot_ok (F : FixedMap) (row : Int) (col : Fin 9) :
    ∀ r2 c2 : Fin 9, find_next_slot F row col = .ok (r2, c2) →
      c2.val ∉ F r2 ∧
      9 * row + col.val < 9 * (r2.val : Int) + c2.val ∧
      (∀ r3 c3 : Fin 9, 9 * (row : Int) + col.val < 9 * r3.val + c3.val →
        9 * (r3.val : Int) + c3.val < 9 * r2.val + c2.val → c3.val ∈ F r3) :=
  fun r2 c2 hok =>
    findNextAux_ok F _ row col (by omega) r2 c2 hok

theorem findPrevAux_total (F : FixedMap) :
    ∀ (steps : Nat) (row : Int) (col : Fin 9),
      (9 * row + col.val).toNat < steps → row < 9 →
      (∃ r3 c3 : Fin 9, c3.val ∉ F r3 ∧
        9 * (r3.val : Int) + c3.val < 9 * row + col.val) →
      ∃ out, findPrevAux F steps row col = .ok out := by
  intro steps
  induction steps with
  | zero =>
    intro row col hb
    exact absurd hb (by omega)
  | succ n ih =>
    intro row col hb hrow ⟨r3, c3, hed, hlt⟩
    have hstep := stepPrev_pos row col
    have hr3 := r3.isLt; have hc3 := c3.isLt
    have hcv := (stepPrevCol col).isLt
    unfold findPrevAux
    split
    · rename_i h
      split
      · rename_i hmem
        apply ih (stepPrevRow row col) (stepPrevCol col) (by omega) h.2
        refine ⟨r3, c3, hed, ?_⟩
        -- the witness cannot be the stepped-to slot, which holds a given
        by_cases hcase : 9 * (r3.val : Int) + c3.val <
            9 * stepPrevRow row col + ((stepPrevCol col).val : Int)
        · omega
        · exfalso
          have h3r : r3 = ⟨(stepPrevRow row col).toNat, by omega⟩ := by
            apply Fin.ext
            simp only [Fin.val_mk]
            omega
          have h3c : c3.val = (stepPrevCol col).val := by omega
          rw [h3r, h3c] at hed
          exact hed hmem
      · exact ⟨_, rfl⟩
    · rename_i h
      exfalso
      have hle : stepPrevRow row col ≤ row := by
        simp only [stepPrevRow]
        split <;> omega
      omega

theorem find_previous_slot_total (F : FixedMap) (row : Int) (col : Fin 9) :
    row < 9 →
    (∃ r3 c3 : Fin 9, c3.val ∉ F r3 ∧
      9 * (r3.val : Int) + c3.val < 9 * row + col.val) →
    ∃ out, find_previous_slot F row col = .ok out :=
  fun hrow hex => findPrevAux_total F _ row col (by omega) hrow hex

theorem findNextAux_total (F : FixedMap) :
    ∀ (steps : Nat) (row : Int) (col : Fin 9),
      (81 - (9 * row + col.val)).toNat < steps → 0 ≤ row →
      (∃ r3 c3 : Fin 9, c3.val ∉ F r3 ∧
        9 * row + col.val < 9 * (r3.val : Int) + c3.val) →
      ∃ out, findNextAux F steps row col = .ok out := by
  intro steps
  induction steps with
  | zero =>
    intro row col hb
    exact absurd hb (by omega)
  | succ n ih =>
    intro row col hb hrow ⟨r3, c3, hed, hlt⟩
    have hstep := stepNext_pos row col
    have hr3 := r3.isLt; have hc3 := c3.isLt
    have hcv := (stepNextCol col).isLt
    have hc := col.isLt
    unfold findNextAux
    split
    · rename_i h
      split
      · rename_i hmem
        apply ih (stepNextRow row col) (stepNextCol col) (by omega) h.1
        refine ⟨r3, c3, hed, ?_⟩
        by_cases hcase : 9 * stepNextRow row col +
            ((stepNextCol col).val : Int) < 9 * (r3.val : Int) + c3.val
        · omega
        · exfalso
          have h3r : r3 = ⟨(stepNextRow row col).toNat, by omega⟩ := by
            apply Fin.ext
            simp only [Fin.val_mk]
            omega
          have h3c : c3.val = (stepNextCol col).val := by omega
          rw [h3r, h3c] at hed
          exact hed hmem
      · exact ⟨_, rfl⟩
    · rename_i h
      exfalso
      have hle : row ≤ stepNextRow row col := by
        simp only [stepNextRow]
        split <;> omega
      omega

theorem find_next_slot_total (F : FixedMap) (row : Int) (col : Fin 9) :
    0 ≤ row →
    (∃ r3 c3 : Fin 9, c3.val ∉ F r3 ∧
      9 * row + col.val < 9 * (r3.val : Int) + c3.val) →
    ∃ out, find_next_slot F row col = .ok out :=
  fun hrow hex => findNextAux_total F _ row col (by omega) hrow hex

/-- `find_previous_slot`, called from the machine (row index in
`0..8`), restated over row-major positions. -/
theorem find_previous_slot_ok_pos {F : FixedMap} {r c r2 c2 : Fin 9}
    (h : find_previous_slot F (r.val : Int) c = .ok (r2, c2)) :
    Editable F r2 c2 ∧ posOf r2 c2 < posOf r c ∧
    (∀ r3 c3 : Fin 9, posOf r2 c2 < posOf r3 c3 → posOf r3 c3 < posOf r c →
      ¬ Editable F r3 c3) := by
  obtain ⟨h1, h2, h3⟩ := find_previous_slot_ok F (r.val : Int) c r2 c2 h
  refine ⟨h1, ?_, ?_⟩
  · unfold posOf; omega
  · intro r3 c3 hgt hlt hed
    unfold posOf at hgt hlt
    exact hed (h3 r3 c3 (by omega) (by omega))

/-- `find_next_slot`, called from the machine, restated over
row-major positions. -/
theorem find_next_slot_ok_pos {F : FixedMap} {r c r2 c2 : Fin 9}
    (h : find_next_slot F (r.val : Int) c = .ok (r2, c2)) :
    Editable F r2 c2 ∧ posOf r c < posOf r2 c2 ∧
    (∀ r3 c3 : Fin 9, posOf r c < posOf r3 c3 → posOf r3 c3 < posOf r2 c2 →
      ¬ Editable F r3 c3) := by
  obtain ⟨h1, h2, h3⟩ := find_next_slot_ok F (r.val : Int) c r2 c2 h
  refine ⟨h1, ?_, ?_⟩
  · unfold posOf; omega
  · intro r3 c3 hgt hlt hed
    unfold posOf at hgt hlt
    exact hed (h3 r3 c3 (by omega) (by omega))

/-- `appears_after` applied to the end slot `(k / 9, k % 9)` tests
whether the row-major position exceeds `k`. -/
theorem appears_after_iff {r c : Fin 9} {k : Nat} (_hk : k < 81) :
    appears_after r.val c.val (k / 9) (k % 9) = true ↔ k < posOf r c := by
  have h1 := r.isLt; have h2 := c.isLt
  unfold appears_after posOf
  by_cases hr : r.val > k / 9
  · simp only [if_pos hr]
    exact ⟨fun _ => by omega, fun _ => by simp⟩
  · by_cases he : r.val = k / 9
    · by_cases hc2 : c.val > k % 9
      · simp only [if_neg hr, if_pos he, if_pos hc2]
        exact ⟨fun _ => by omega, fun _ => by simp⟩
      · simp only [if_neg hr, if_pos he, if_neg hc2]
        exact ⟨fun h => by simp at h, fun h => by omega⟩
    · simp only [if_neg hr, if_neg he]
      exact ⟨fun h => by simp at h, fun h => by omega⟩

/-! ## The run invariant

The invariant carried through every state of a run started from an
input grid `P` and fixed map `F` satisfying the preconditions.  The
three parts follow the three phases; `g` is the current grid.

In phase `forward k`, every editable cell before `k` holds a digit
`1..9`, every cell from `k` on still holds its input value, and every
fixed cell holds its input value (a given).

In phase `back k r c`, the cursor `(r, c)` is editable and not past
the stuck cell `k`; editable cells before the cursor hold `1..9`;
editable cells from the cursor through `k` hold exhausted sentinel
values `≥ 10`; cells after `k` and fixed cells hold input values.

Phase `refill k r c num` is the same except that the cursor cell
holds `num` when `num < 10` (it was just written) and a sentinel
`≥ 10` otherwise, and the sentinel zone starts strictly after the
cursor. -/

def InvFwd (P : Grid) (F : FixedMap) (g : Grid) (k : Nat) : Prop :=
  (∀ r c : Fin 9, Editable F r c → posOf r c < k →
    1 ≤ g r c ∧ g r c ≤ 9) ∧
  (∀ r c : Fin 9, k ≤ posOf r c → g r c = P r c) ∧
  (∀ r c : Fin 9, ¬ Editable F r c → g r c = P r c)

def InvBack (P : Grid) (F : FixedMap) (g : Grid) (k : Nat)
    (r c : Fin 9) : Prop :=
  Editable F r c ∧ posOf r c ≤ k ∧
  (∀ r2 c2 : Fin 9, Editable F r2 c2 → posOf r2 c2 < posOf r c →
    1 ≤ g r2 c2 ∧ g r2 c2 ≤ 9) ∧
  (∀ r2 c2 : Fin 9, Editable F r2 c2 → posOf r c ≤ posOf r2 c2 →
    posOf r2 c2 ≤ k → 10 ≤ g r2 c2) ∧
  (∀ r2 c2 : Fin 9, k < posOf r2 c2 → g r2 c2 = P r2 c2) ∧
  (∀ r2 c2 : Fin 9, ¬ Editable F r2 c2 → g r2 c2 = P r2 c2)

def InvRef (P : Grid) (F : FixedMap) (g : Grid) (k : Nat)
    (r c : Fin 9) (num : Nat) : Prop :=
  Editable F r c ∧ posOf r c ≤ k ∧
  (∀ r2 c2 : Fin 9, Editable F r2 c2 → posOf r2 c2 < posOf r c →
    1 ≤ g r2 c2 ∧ g r2 c2 ≤ 9) ∧
  (num < 10 → g r c = num ∧ 1 ≤ num) ∧
  (10 ≤ num → 10 ≤ g r c) ∧
  (∀ r2 c2 : Fin 9, Editable F r2 c2 → posOf r c < posOf r2 c2 →
    posOf r2 c2 ≤ k → 10 ≤ g r2 c2) ∧
  (∀ r2 c2 : Fin 9, k < posOf r2 c2 → g r2 c2 = P r2 c2) ∧
  (∀ r2 c2 : Fin 9, ¬ Editable F r2 c2 → g r2 c2 = P r2 c2)

def Inv (P : Grid) (F : FixedMap) (s : SState) : Prop :=
  match s.ph with
  | .forward k => k ≤ 81 ∧ InvFwd P F s.grid k
  | .back k r c => k < 81 ∧ InvBack P F s.grid k r c
  | .refill k r c num => k < 81 ∧ InvRef P F s.grid k r c num

/-! ## Preservation of `consistent` by every write of the engine -/

theorem consistent_setCell {G : Grid} {r c : Fin 9} {v : Nat}
    (hv : v < 10 →
      v ∉ rowOf G r ∧ v ∉ current_col G c ∧ v ∉ current_grid G r c)
    (hG : consistent G) : consistent (setCell G r c v) := by
  intro r1 c1 r2 c2 hunit hne h1 h9 heq
  by_cases e1 : r1 = r ∧ c1 = c
  · obtain ⟨rfl, rfl⟩ := e1
    rw [setCell_self] at h1 h9 heq
    by_cases e2 : r2 = r1 ∧ c2 = c1
    · exact hne ⟨e2.1.symm, e2.2.symm⟩
    · rw [setCell_ne _ _ _ _ e2] at heq
      obtain ⟨hr, hc, hg⟩ := hv (by omega)
      rcases hunit with rfl | rfl | ⟨hbr, hbc⟩
      · exact hr (heq ▸ self_mem_rowOf G r1 c2)
      · exact hc (heq ▸ self_mem_current_col G r2 c1)
      · exact hg (heq ▸
          mem_current_grid_of_sameBox G hbr.symm hbc.symm)
  · rw [setCell_ne _ _ _ _ e1] at h1 h9 heq
    by_cases e2 : r2 = r ∧ c2 = c
    · obtain ⟨rfl, rfl⟩ := e2
      rw [setCell_self] at heq
      obtain ⟨hr, hc, hg⟩ := hv (by omega)
      rcases hunit with rfl | rfl | ⟨hbr, hbc⟩
      · exact hr (heq ▸ self_mem_rowOf G r1 c1)
      · exact hc (heq ▸ self_mem_current_col G r1 c1)
      · exact hg (heq ▸ mem_current_grid_of_sameBox G hbr hbc)
    · rw [setCell_ne _ _ _ _ e2] at heq
      exact hG r1 c1 r2 c2 hunit hne h1 h9 heq

theorem consistent_stepForward {g : Grid} {k : Nat} (h : k < 81)
    (hc : consistent g) : consistent (stepForward g k h).grid := by
  unfold stepForward
  split
  · have hpres : consistent (setCell g ⟨k / 9, by omega⟩ ⟨k % 9, by omega⟩
        (pick_input_num g ⟨k / 9, by omega⟩ ⟨k % 9, by omega⟩ 1)) :=
      consistent_setCell (fun hlt => pick_not_mem_of_lt10 hlt) hc
    split <;> exact hpres
  · split <;> exact hc

theorem consistent_stepBack {F : FixedMap} {g : Grid} {k : Nat}
    {r c : Fin 9} {s2 : SState} (hc : consistent g)
    (hstep : stepBack F g k r c = .ok s2) : consistent s2.grid := by
  unfold stepBack at hstep
  split at hstep
  · exact absurd hstep (by simp)
  · split at hstep <;>
      (cases hstep
       exact consistent_setCell (fun hlt => pick_not_mem_of_lt10 hlt) hc)

theorem consistent_stepRefill {F : FixedMap} {g : Grid} {k : Nat}
    {r c : Fin 9} {num : Nat} {s2 : SState} (hc : consistent g)
    (hstep : stepRefill F g k r c num = .ok s2) : consistent s2.grid := by
  unfold stepRefill at hstep
  split at hstep
  · split at hstep
    · exact absurd hstep (by simp)
    · split at hstep
      · cases hstep; exact hc
      · split at hstep
        · cases hstep
          exact consistent_setCell (fun hlt => pick_not_mem_of_lt10 hlt) hc
        · cases hstep; exact hc
  · cases hstep; exact hc

theorem consistent_step {F : FixedMap} {s s2 : SState}
    (hc : consistent s.grid) (hstep : step F s = .ok s2) :
    consistent s2.grid := by
  unfold step at hstep
  split at hstep
  · split at hstep
    · cases hstep
      exact consistent_stepForward _ hc
    · cases hstep
      exact hc
  · exact consistent_stepBack hc hstep
  · exact consistent_stepRefill hc hstep

/-! ## Preservation of the run invariant -/

theorem posOf_cell {k : Nat} (h : k < 81) :
    posOf (cellRow k h) (cellCol k h) = k := by
  unfold posOf cellRow cellCol
  simp only [Fin.val_mk]
  omega

theorem not_editable {F : FixedMap} {r c : Fin 9} (h : c.val ∈ F r) :
    ¬ Editable F r c := fun he => he h

theorem inv_stepForward {P : Grid} {F : FixedMap} {g : Grid} {k : Nat}
    (hpre1 : cellsInRange P) (hpre2 : fixedGivens P F) (h : k < 81)
    (hinv : InvFwd P F g k) : Inv P F (stepForward g k h) := by
  obtain ⟨F1, F2, F3⟩ := hinv
  have hpos := posOf_cell h
  have hval : g (cellRow k h) (cellCol k h) = P (cellRow k h) (cellCol k h) :=
    F2 _ _ (le_of_eq hpos.symm)
  unfold stepForward
  split
  · -- the slot is 0 and is filled with `pick_input_num`
    rename_i hslot
    have hed : Editable F (cellRow k h) (cellCol k h) := by
      by_contra hfix
      have h1 := hpre2 _ _ hfix
      omega
    have hge : 1 ≤ pick_input_num g (cellRow k h) (cellCol k h) 1 :=
      pick_ge g _ _ 1
    rw [setCell_self]
    split
    · -- an invalid number was entered: enter the backtracking loop
      rename_i hbig
      refine ⟨h, hed, le_of_eq hpos, ?_, ?_, ?_, ?_⟩ <;> dsimp only
      · intro r2 c2 hed2 hlt
        rw [setCell_ne_pos _ _ _ _ (by omega)]
        exact F1 r2 c2 hed2 (by omega)
      · intro r2 c2 hed2 hge2 hle2
        have he : posOf r2 c2 = posOf (cellRow k h) (cellCol k h) := by omega
        obtain ⟨rfl, rfl⟩ := posOf_inj he
        rw [setCell_self]
        omega
      · intro r2 c2 hgt
        rw [setCell_ne_pos _ _ _ _ (by omega)]
        exact F2 r2 c2 (by omega)
      · intro r2 c2 hfix
        rw [setCell_ne_pos _ _ _ _ ?_]
        · exact F3 r2 c2 hfix
        · intro he
          obtain ⟨rfl, rfl⟩ := posOf_inj he
          exact hfix hed
    · -- a valid number was entered: move to the next cell
      rename_i hsmall
      refine ⟨by omega, ?_, ?_, ?_⟩ <;> dsimp only
      · intro r2 c2 hed2 hlt
        by_cases he : posOf r2 c2 = posOf (cellRow k h) (cellCol k h)
        · obtain ⟨rfl, rfl⟩ := posOf_inj he
          rw [setCell_self]
          omega
        · rw [setCell_ne_pos _ _ _ _ he]
          exact F1 r2 c2 hed2 (by omega)
      · intro r2 c2 hge2
        rw [setCell_ne_pos _ _ _ _ (by omega)]
        exact F2 r2 c2 (by omega)
      · intro r2 c2 hfix
        rw [setCell_ne_pos _ _ _ _ ?_]
        · exact F3 r2 c2 hfix
        · intro he
          obtain ⟨rfl, rfl⟩ := posOf_inj he
          have h1 := hpre2 _ _ hfix
          omega
  · -- the slot already holds a number
    rename_i hslot
    have hle9 : g (cellRow k h) (cellCol k h) ≤ 9 := by
      rw [hval]; exact hpre1 _ _
    split
    · -- `current_num > 9` is impossible here under the preconditions
      omega
    · refine ⟨by omega, ?_, ?_, ?_⟩ <;> dsimp only
      · intro r2 c2 hed2 hlt
        by_cases he : posOf r2 c2 = posOf (cellRow k h) (cellCol k h)
        · obtain ⟨rfl, rfl⟩ := posOf_inj he
          omega
        · exact F1 r2 c2 hed2 (by omega)
      · intro r2 c2 hge2
        exact F2 r2 c2 (by omega)
      · exact F3

theorem inv_stepBack {P : Grid} {F : FixedMap} {g : Grid} {k : Nat}
    {r c : Fin 9} {s2 : SState} (hk : k < 81)
    (hinv : InvBack P F g k r c) (hstep : stepBack F g k r c = .ok s2) :
    Inv P F s2 := by
  obtain ⟨hed, hpk, B1, B2, B3, B4⟩ := hinv
  unfold stepBack at hstep
  split at hstep
  · exact absurd hstep (by simp)
  · rename_i x r2 c2 heq
    obtain ⟨hed2, hlt2, hbet⟩ := find_previous_slot_ok_pos heq
    have hge : g r2 c2 + 1 ≤ pick_input_num g r2 c2 (g r2 c2 + 1) :=
      pick_ge g r2 c2 _
    split at hstep
    · -- a valid number: enter the re-fill loop at `(r2, c2)`
      rename_i hsmall
      cases hstep
      refine ⟨hk, hed2, by omega, ?_, ?_, ?_, ?_, ?_, ?_⟩ <;> dsimp only
      · intro r3 c3 hed3 hlt3
        rw [setCell_ne_pos _ _ _ _ (by omega)]
        exact B1 r3 c3 hed3 (by omega)
      · intro _
        rw [setCell_self]
        omega
      · intro hbig
        omega
      · intro r3 c3 hed3 hgt3 hle3
        rw [setCell_ne_pos _ _ _ _ (by omega)]
        rcases Nat.lt_or_ge (posOf r3 c3) (posOf r c) with hcase | hcase
        · exact absurd hed3 (hbet r3 c3 hgt3 hcase)
        · exact B2 r3 c3 hed3 hcase hle3
      · intro r3 c3 hgt3
        rw [setCell_ne_pos _ _ _ _ (by omega)]
        exact B3 r3 c3 hgt3
      · intro r3 c3 hfix3
        rw [setCell_ne_pos _ _ _ _ ?_]
        · exact B4 r3 c3 hfix3
        · intro he
          obtain ⟨rfl, rfl⟩ := posOf_inj he
          exact hfix3 hed2
    · -- the new number is invalid as well: keep backtracking
      rename_i hbig
      cases hstep
      refine ⟨hk, hed2, by omega, ?_, ?_, ?_, ?_⟩ <;> dsimp only
      · intro r3 c3 hed3 hlt3
        rw [setCell_ne_pos _ _ _ _ (by omega)]
        exact B1 r3 c3 hed3 (by omega)
      · intro r3 c3 hed3 hge3 hle3
        by_cases he : posOf r3 c3 = posOf r2 c2
        · obtain ⟨rfl, rfl⟩ := posOf_inj he
          rw [setCell_self]
          omega
        · rw [setCell_ne_pos _ _ _ _ he]
          rcases Nat.lt_or_ge (posOf r3 c3) (posOf r c) with hcase | hcase
          · exact absurd hed3 (hbet r3 c3 (by omega) hcase)
          · exact B2 r3 c3 hed3 hcase hle3
      · intro r3 c3 hgt3
        rw [setCell_ne_pos _ _ _ _ (by omega)]
        exact B3 r3 c3 hgt3
      · intro r3 c3 hfix3
        rw [setCell_ne_pos _ _ _ _ ?_]
        · exact B4 r3 c3 hfix3
        · intro he
          obtain ⟨rfl, rfl⟩ := posOf_inj he
          exact hfix3 hed2

theorem inv_stepRefill {P : Grid} {F : FixedMap} {g : Grid} {k : Nat}
    {r c : Fin 9} {num : Nat} {s2 : SState} (hk : k < 81)
    (hinv : InvRef P F g k r c num)
    (hstep : stepRefill F g k r c num = .ok s2) : Inv P F s2 := by
  obtain ⟨hed, hpk, R1, Rm1, Rm2, R2, R3, R4⟩ := hinv
  unfold stepRefill at hstep
  split at hstep
  · -- `current_num < 10`: move to the next slot
    rename_i hnum
    split at hstep
    · exact absurd hstep (by simp)
    · rename_i x r2 c2 heq
      obtain ⟨hed2, hgt2, hbet⟩ := find_next_slot_ok_pos heq
      obtain ⟨hc0, hc1⟩ := Rm1 hnum
      split at hstep
      · -- the next slot lies after the end slot: `break`, the `while`
        -- loop exits, the `for` loops move on
        rename_i happ
        have hpast : k < posOf r2 c2 := (appears_after_iff hk).mp happ
        cases hstep
        refine ⟨by omega, ?_, ?_, ?_⟩ <;> dsimp only
        · intro r3 c3 hed3 hlt3
          rcases Nat.lt_trichotomy (posOf r3 c3) (posOf r c) with hcase | hcase | hcase
          · exact R1 r3 c3 hed3 hcase
          · obtain ⟨rfl, rfl⟩ := posOf_inj hcase
            omega
          · exact absurd hed3 (hbet r3 c3 hcase (by omega))
        · intro r3 c3 hge3
          exact R3 r3 c3 (by omega)
        · exact R4
      · -- re-derive the next slot's value
        rename_i happ
        have hpast : posOf r2 c2 ≤ k := by
          rcases Nat.lt_or_ge k (posOf r2 c2) with hcase | hcase
          · exact absurd ((appears_after_iff hk).mpr hcase) happ
          · exact hcase
        have hge2 : 1 ≤ pick_input_num g r2 c2 1 := pick_ge g r2 c2 1
        split at hstep
        · -- the fresh number is valid and is written
          rename_i hsmall
          cases hstep
          refine ⟨hk, hed2, hpast, ?_, ?_, ?_, ?_, ?_, ?_⟩ <;> dsimp only
          · intro r3 c3 hed3 hlt3
            rw [setCell_ne_pos _ _ _ _ (by omega)]
            rcases Nat.lt_trichotomy (posOf r3 c3) (posOf r c) with hcase | hcase | hcase
            · exact R1 r3 c3 hed3 hcase
            · obtain ⟨rfl, rfl⟩ := posOf_inj hcase
              omega
            · exact absurd hed3 (hbet r3 c3 hcase (by omega))
          · intro _
            rw [setCell_self]
            omega
          · intro hbig
            omega
          · intro r3 c3 hed3 hgt3 hle3
            rw [setCell_ne_pos _ _ _ _ (by omega)]
            exact R2 r3 c3 hed3 (by omega) hle3
          · intro r3 c3 hgt3
            rw [setCell_ne_pos _ _ _ _ (by omega)]
            exact R3 r3 c3 hgt3
          · intro r3 c3 hfix3
            rw [setCell_ne_pos _ _ _ _ ?_]
            · exact R4 r3 c3 hfix3
            · intro he
              obtain ⟨rfl, rfl⟩ := posOf_inj he
              exact hfix3 hed2
        · -- the fresh number is invalid: the re-fill loop stops and
          -- backtracking will resume from `(r2, c2)`
          rename_i hbig
          cases hstep
          refine ⟨hk, hed2, hpast, ?_, ?_, ?_, ?_, ?_, ?_⟩ <;> dsimp only
          · intro r3 c3 hed3 hlt3
            rcases Nat.lt_trichotomy (posOf r3 c3) (posOf r c) with hcase | hcase | hcase
            · exact R1 r3 c3 hed3 hcase
            · obtain ⟨rfl, rfl⟩ := posOf_inj hcase
              omega
            · exact absurd hed3 (hbet r3 c3 hcase (by omega))
          · intro hsmall
            omega
          · intro _
            exact R2 r2 c2 hed2 hgt2 hpast
          · intro r3 c3 hed3 hgt3 hle3
            exact R2 r3 c3 hed3 (by omega) hle3
          · exact R3
          · exact R4
  · -- `current_num ≥ 10`: the re-fill loop stops, `solve_sudoku`
    -- re-enters the backtracking loop at `(r, c)`
    rename_i hnum
    cases hstep
    refine ⟨hk, hed, hpk, R1, ?_, R3, R4⟩
    intro r3 c3 hed3 hge3 hle3
    by_cases he : posOf r3 c3 = posOf r c
    · obtain ⟨rfl, rfl⟩ := posOf_inj he
      exact Rm2 (by omega)
    · exact R2 r3 c3 hed3 (by omega) hle3

theorem inv_step {P : Grid} {F : FixedMap} {s s2 : SState}
    (hpre1 : cellsInRange P) (hpre2 : fixedGivens P F)
    (hinv : Inv P F s) (hstep : step F s = .ok s2) : Inv P F s2 := by
  unfold step at hstep
  cases s with
  | mk g ph =>
    cases ph with
    | forward k =>
      dsimp only at hstep
      split at hstep
      · cases hstep
        exact inv_stepForward hpre1 hpre2 _ hinv.2
      · cases hstep
        exact hinv
    | back k r c =>
      exact inv_stepBack hinv.1 hinv.2 hstep
    | refill k r c num =>
      exact inv_stepRefill hinv.1 hinv.2 hstep

/-- The invariant holds in the initial state. -/
theorem inv_init (P : Grid) (F : FixedMap) : Inv P F ⟨P, .forward 0⟩ := by
  refine ⟨by omega, ?_, ?_, ?_⟩
  · intro r c _ h
    omega
  · intro r c _
    rfl
  · intro r c _
    rfl

theorem inv_stepN {P : Grid} {F : FixedMap}
    (hpre1 : cellsInRange P) (hpre2 : fixedGivens P F) :
    ∀ (n : Nat) (s s2 : SState), Inv P F s → stepN F n s = .ok s2 →
      Inv P F s2 := by
  intro n
  induction n with
  | zero =>
    intro s s2 hinv h
    cases h
    exact hinv
  | succ n ih =>
    intro s s2 hinv h
    unfold stepN at h
    split at h
    · exact absurd h (by simp)
    · exact ih _ _ (inv_step hpre1 hpre2 hinv (by assumption)) h

theorem runAux_inv {P : Grid} {F : FixedMap}
    (hpre1 : cellsInRange P) (hpre2 : fixedGivens P F) :
    ∀ (fuel : Nat) (s s2 : SState), Inv P F s →
      runAux F fuel s = .ok s2 → Inv P F s2 ∧ isDone s2 = true := by
  intro fuel
  induction fuel with
  | zero =>
    intro s s2 _ h
    exact absurd h (by simp [runAux])
  | succ n ih =>
    intro s s2 hinv h
    unfold runAux at h
    split at h
    · cases h
      exact ⟨hinv, by assumption⟩
    · split at h
      · exact absurd h (by simp)
      · exact ih _ _ (inv_step hpre1 hpre2 hinv (by assumption)) h

theorem runAux_consistent {F : FixedMap} :
    ∀ (fuel : Nat) (s s2 : SState), consistent s.grid →
      runAux F fuel s = .ok s2 → consistent s2.grid := by
  intro fuel
  induction fuel with
  | zero =>
    intro s s2 _ h
    exact absurd h (by simp [runAux])
  | succ n ih =>
    intro s s2 hcons h
    unfold runAux at h
    split at h
    · cases h
      exact hcons
    · split at h
      · exact absurd h (by simp)
      · exact ih _ _ (consistent_step hcons (by assumption)) h

/-- What the invariant yields in a finished state: every editable
cell holds a digit `1..9` and every fixed cell its input value. -/
theorem inv_done {P : Grid} {F : FixedMap} {s : SState}
    (hinv : Inv P F s) (hdone : isDone s = true) :
    (∀ r c : Fin 9, Editable F r c → 1 ≤ s.grid r c ∧ s.grid r c ≤ 9) ∧
    (∀ r c : Fin 9, ¬ Editable F r c → s.grid r c = P r c) := by
  cases s with
  | mk g ph =>
    cases ph with
    | forward k =>
      obtain ⟨-, F1, F2, F3⟩ := hinv
      unfold isDone at hdone
      simp only [decide_eq_true_eq] at hdone
      refine ⟨?_, F3⟩
      intro r c hed
      exact F1 r c hed (by have := posOf_lt r c; omega)
    | back k r c =>
      exact absurd hdone (by simp [isDone])
    | refill k r c num =>
      exact absurd hdone (by simp [isDone])

/-! ## From consistency to the exactly-once property -/

theorem validSolution_of_consistent {G : Grid}
    (hall : ∀ r c : Fin 9, 1 ≤ G r c ∧ G r c ≤ 9)
    (hcons : consistent G) : validSolution G := by
  intro d hd1 hd9
  refine ⟨?_, ?_, ?_⟩
  · -- rows
    intro r
    have hinj : Function.Injective
        (fun c : Fin 9 => (⟨G r c - 1, by have := hall r c; omega⟩ : Fin 9)) := by
      intro c1 c2 hfe
      by_contra hne
      have hne2 : ¬(r = r ∧ c1 = c2) := fun h => hne h.2
      have heq : G r c1 = G r c2 := by
        have := congrArg Fin.val hfe
        simp only [Fin.val_mk] at this
        have h1 := hall r c1
        have h2 := hall r c2
        omega
      exact hcons r c1 r c2 (Or.inl rfl) hne2 (hall r c1).1 (hall r c1).2 heq
    have hsurj := (Finite.injective_iff_surjective).mp hinj
    obtain ⟨c, hc⟩ := hsurj ⟨d - 1, by omega⟩
    have hGc : G r c = d := by
      have := congrArg Fin.val hc
      simp only [Fin.val_mk] at this
      have h1 := hall r c
      omega
    refine ⟨c, hGc, ?_⟩
    intro c2 hc2
    apply hinj
    apply Fin.ext
    simp only [Fin.val_mk]
    rw [hc2, hGc]
  · -- columns
    intro c
    have hinj : Function.Injective
        (fun r : Fin 9 => (⟨G r c - 1, by have := hall r c; omega⟩ : Fin 9)) := by
      intro r1 r2 hfe
      by_contra hne
      have hne2 : ¬(r1 = r2 ∧ c = c) := fun h => hne h.1
      have heq : G r1 c = G r2 c := by
        have := congrArg Fin.val hfe
        simp only [Fin.val_mk] at this
        have h1 := hall r1 c
        have h2 := hall r2 c
        omega
      exact hcons r1 c r2 c (Or.inr (Or.inl rfl)) hne2
        (hall r1 c).1 (hall r1 c).2 heq
    have hsurj := (Finite.injective_iff_surjective).mp hinj
    obtain ⟨r, hr⟩ := hsurj ⟨d - 1, by omega⟩
    have hGr : G r c = d := by
      have := congrArg Fin.val hr
      simp only [Fin.val_mk] at this
      have h1 := hall r c
      omega
    refine ⟨r, hGr, ?_⟩
    intro r2 hr2
    apply hinj
    apply Fin.ext
    simp only [Fin.val_mk]
    rw [hr2, hGr]
  · -- boxes
    intro br bc
    have hbox : ∀ i : Fin 3, (boxIdx br i).val - (boxIdx br i).val % 3 =
        3 * br.val := by
      intro i
      have h1 := br.isLt; have h2 := i.isLt
      unfold boxIdx
      simp only [Fin.val_mk]
      omega
    have hboxc : ∀ j : Fin 3, (boxIdx bc j).val - (boxIdx bc j).val % 3 =
        3 * bc.val := by
      intro j
      have h1 := bc.isLt; have h2 := j.isLt
      unfold boxIdx
      simp only [Fin.val_mk]
      omega
    have hbij : ∀ i1 i2 : Fin 3, boxIdx br i1 = boxIdx br i2 → i1 = i2 := by
      intro i1 i2 he
      have := congrArg Fin.val he
      unfold boxIdx at this
      simp only [Fin.val_mk] at this
      have h1 := i1.isLt; have h2 := i2.isLt
      apply Fin.ext
      omega
    have hbij2 : ∀ j1 j2 : Fin 3, boxIdx bc j1 = boxIdx bc j2 → j1 = j2 := by
      intro j1 j2 he
      have := congrArg Fin.val he
      unfold boxIdx at this
      simp only [Fin.val_mk] at this
      have h1 := j1.isLt; have h2 := j2.isLt
      apply Fin.ext
      omega
    have hinj : Function.Injective
        (fun p : Fin 3 × Fin 3 =>
          (⟨G (boxIdx br p.1) (boxIdx bc p.2) - 1, by
            have := hall (boxIdx br p.1) (boxIdx bc p.2); omega⟩ : Fin 9)) := by
      intro p1 p2 hfe
      by_contra hne
      have hne2 : ¬(boxIdx br p1.1 = boxIdx br p2.1 ∧
          boxIdx bc p1.2 = boxIdx bc p2.2) := by
        rintro ⟨he1, he2⟩
        exact hne (Prod.ext (hbij _ _ he1) (hbij2 _ _ he2))
      have heq : G (boxIdx br p1.1) (boxIdx bc p1.2) =
          G (boxIdx br p2.1) (boxIdx bc p2.2) := by
        have := congrArg Fin.val hfe
        simp only [Fin.val_mk] at this
        have h1 := hall (boxIdx br p1.1) (boxIdx bc p1.2)
        have h2 := hall (boxIdx br p2.1) (boxIdx bc p2.2)
        omega
      refine hcons _ _ _ _ (Or.inr (Or.inr ⟨?_, ?_⟩)) hne2
        (hall _ _).1 (hall _ _).2 heq
      · rw [hbox p1.1, hbox p2.1]
      · rw [hboxc p1.2, hboxc p2.2]
    have hcard : Fintype.card (Fin 3 × Fin 3) = Fintype.card (Fin 9) := by
      simp
    have hsurj := (Fintype.bijective_iff_injective_and_card _).mpr
      ⟨hinj, hcard⟩ |>.2
    obtain ⟨p, hp⟩ := hsurj ⟨d - 1, by omega⟩
    have hGp : G (boxIdx br p.1) (boxIdx bc p.2) = d := by
      have := congrArg Fin.val hp
      simp only [Fin.val_mk] at this
      have h1 := hall (boxIdx br p.1) (boxIdx bc p.2)
      omega
    refine ⟨p, hGp, ?_⟩
    intro p2 hp2
    apply hinj
    apply Fin.ext
    simp only [Fin.val_mk]
    rw [hp2, hGp]

/-! ## Runs over grids with no empty cell -/

theorem runAux_all_filled {P : Grid} {F : FixedMap}
    (hall : ∀ r c : Fin 9, P r c ≠ 0 ∧ P r c ≤ 9) :
    ∀ (n k : Nat), k ≤ 81 → 81 - k < n →
      runAux F n ⟨P, .forward k⟩ = .ok ⟨P, .forward 81⟩ := by
  intro n
  induction n with
  | zero =>
    intro k _ h
    omega
  | succ n ih =>
    intro k hk hn
    unfold runAux
    by_cases hdone : k = 81
    · subst hdone
      rw [if_pos (by simp [isDone])]
    · rw [if_neg (by simp [isDone]; omega)]
      have hlt : k < 81 := by omega
      have hstep : step F ⟨P, .forward k⟩ = .ok ⟨P, .forward (k + 1)⟩ := by
        unfold step
        dsimp only
        rw [dif_pos hlt]
        unfold stepForward
        rw [if_neg (hall _ _).1, if_neg (by have := (hall (cellRow k hlt) (cellCol k hlt)).2; omega)]
      rw [hstep]
      exact ih (k + 1) (by omega) (by omega)

/-- A grid with no empty cell and no value above 9 is passed through
unchanged: the forward scan keeps every slot and never backtracks. -/
theorem solve_unchanged {P : Grid} {F : FixedMap} {fuel : Nat}
    (hall : ∀ r c : Fin 9, P r c ≠ 0 ∧ P r c ≤ 9) (hfuel : 82 ≤ fuel) :
    solve_sudoku P F fuel = .ok P := by
  unfold solve_sudoku
  have h82 : runAux F fuel ⟨P, .forward 0⟩ = .ok ⟨P, .forward 81⟩ :=
    runAux_all_filled hall fuel 0 (by omega) (by omega)
  rw [h82]

/-! ## Concrete inputs used for counterexamples and witnesses -/

/-- Every cell is a given. -/
def allFixed : FixedMap := fun _ => [0, 1, 2, 3, 4, 5, 6, 7, 8]

/-- No cell is a given. -/
def noFixed : FixedMap := fun _ => []

/-- A complete valid Sudoku grid. -/
def validGridA : Grid := mkGrid [
  [1, 2, 3, 4, 5, 6, 7, 8, 9],
  [4, 5, 6, 7, 8, 9, 1, 2, 3],
  [7, 8, 9, 1, 2, 3, 4, 5, 6],
  [2, 3, 4, 5, 6, 7, 8, 9, 1],
  [5, 6, 7, 8, 9, 1, 2, 3, 4],
  [8, 9, 1, 2, 3, 4, 5, 6, 7],
  [3, 4, 5, 6, 7, 8, 9, 1, 2],
  [6, 7, 8, 9, 1, 2, 3, 4, 5],
  [9, 1, 2, 3, 4, 5, 6, 7, 8]]

/-- Another complete valid Sudoku grid. -/
def validGridB : Grid := mkGrid [
  [2, 3, 4, 5, 6, 7, 8, 9, 1],
  [5, 6, 7, 8, 9, 1, 2, 3, 4],
  [8, 9, 1, 2, 3, 4, 5, 6, 7],
  [3, 4, 5, 6, 7, 8, 9, 1, 2],
  [6, 7, 8, 9, 1, 2, 3, 4, 5],
  [9, 1, 2, 3, 4, 5, 6, 7, 8],
  [4, 5, 6, 7, 8, 9, 1, 2, 3],
  [7, 8, 9, 1, 2, 3, 4, 5, 6],
  [1, 2, 3, 4, 5, 6, 7, 8, 9]]

/-- A fully-given grid whose rows are valid but whose columns all
repeat the same digit: the givens are malformed, yet the engine
passes it through unchanged. -/
def gridColsDupA : Grid := mkGrid [
  [9, 8, 7, 6, 5, 4, 3, 2, 1],
  [9, 8, 7, 6, 5, 4, 3, 2, 1],
  [9, 8, 7, 6, 5, 4, 3, 2, 1],
  [9, 8, 7, 6, 5, 4, 3, 2, 1],
  [9, 8, 7, 6, 5, 4, 3, 2, 1],
  [9, 8, 7, 6, 5, 4, 3, 2, 1],
  [9, 8, 7, 6, 5, 4, 3, 2, 1],
  [9, 8, 7, 6, 5, 4, 3, 2, 1],
  [9, 8, 7, 6, 5, 4, 3, 2, 1]]

/-- A second fully-given malformed grid (every column repeats). -/
def gridColsDupB : Grid := mkGrid [
  [1, 2, 3, 4, 5, 6, 7, 8, 9],
  [1, 2, 3, 4, 5, 6, 7, 8, 9],
  [1, 2, 3, 4, 5, 6, 7, 8, 9],
  [1, 2, 3, 4, 5, 6, 7, 8, 9],
  [1, 2, 3, 4, 5, 6, 7, 8, 9],
  [1, 2, 3, 4, 5, 6, 7, 8, 9],
  [1, 2, 3, 4, 5, 6, 7, 8, 9],
  [1, 2, 3, 4, 5, 6, 7, 8, 9],
  [1, 2, 3, 4, 5, 6, 7, 8, 9]]

/-- An unsolvable input: cell `(0,0)` is editable but its row already
holds `1..8` and its column a `9`, so the very first cell is
exhausted and backtracking asks for the slot before `(0,0)`. -/
def unsolvGridA : Grid := mkGrid [
  [0, 1, 2, 3, 4, 5, 6, 7, 8],
  [9, 1, 2, 3, 4, 5, 6, 7, 8],
  [1, 2, 3, 4, 5, 6, 7, 8, 9],
  [1, 2, 3, 4, 5, 6, 7, 8, 9],
  [1, 2, 3, 4, 5, 6, 7, 8, 9],
  [1, 2, 3, 4, 5, 6, 7, 8, 9],
  [1, 2, 3, 4, 5, 6, 7, 8, 9],
  [1, 2, 3, 4, 5, 6, 7, 8, 9],
  [1, 2, 3, 4, 5, 6, 7, 8, 9]]

/-- Fixed map for `unsolvGridA`: everything is given except `(0,0)`. -/
def unsolvFixedA : FixedMap :=
  fun r => if r.val = 0 then [1, 2, 3, 4, 5, 6, 7, 8] else
    [0, 1, 2, 3, 4, 5, 6, 7, 8]

/-- A variant of `unsolvGridA` (different digits). -/
def unsolvGridB : Grid := mkGrid [
  [0, 2, 3, 4, 5, 6, 7, 8, 9],
  [1, 2, 3, 4, 5, 6, 7, 8, 9],
  [2, 3, 4, 5, 6, 7, 8, 9, 1],
  [2, 3, 4, 5, 6, 7, 8, 9, 1],
  [2, 3, 4, 5, 6, 7, 8, 9, 1],
  [2, 3, 4, 5, 6, 7, 8, 9, 1],
  [2, 3, 4, 5, 6, 7, 8, 9, 1],
  [2, 3, 4, 5, 6, 7, 8, 9, 1],
  [2, 3, 4, 5, 6, 7, 8, 9, 1]]

/-- Fixed map for `unsolvGridB`. -/
def unsolvFixedB : FixedMap :=
  fun r => if r.val = 0 then [1, 2, 3, 4, 5, 6, 7, 8] else
    [0, 1, 2, 3, 4, 5, 6, 7, 8]

/-- An input on which the engine backtracks inside the last row and
then, at the moment the re-fill loop has just completed the grid,
asks `find_next_slot` for the slot after `(8,8)` — reaching the row
key `9`.  Cells `(8,4)` and `(8,5)` are editable; column 5 of the
given rows blocks the digit 9 at `(8,5)` on the first pass. -/
def crashGridA : Grid := mkGrid [
  [1, 2, 3, 4, 6, 9, 7, 8, 5],
  [1, 2, 3, 4, 6, 9, 7, 8, 5],
  [1, 2, 3, 4, 6, 9, 7, 8, 5],
  [1, 2, 3, 4, 6, 9, 7, 8, 5],
  [1, 2, 3, 4, 6, 9, 7, 8, 5],
  [1, 2, 3, 4, 6, 9, 7, 8, 5],
  [1, 2, 3, 4, 6, 7, 1, 2, 3],
  [1, 2, 3, 4, 6, 7, 1, 2, 3],
  [1, 2, 3, 4, 0, 0, 6, 7, 8]]

/-- Fixed map for `crashGridA`: everything is given except `(8,4)`
and `(8,5)`. -/
def crashFixedA : FixedMap :=
  fun r => if r.val = 8 then [0, 1, 2, 3, 6, 7, 8] else
    [0, 1, 2, 3, 4, 5, 6, 7, 8]

/-- `validGridA` with three cells cleared (each is forced back to the
`validGridA` value by its row, column and box). -/
def holesGridA : Grid := mkGrid [
  [1, 2, 3, 4, 5, 6, 7, 8, 9],
  [4, 5, 0, 7, 8, 9, 1, 2, 3],
  [7, 8, 9, 1, 2, 3, 4, 5, 6],
  [2, 3, 4, 5, 0, 7, 8, 9, 1],
  [5, 6, 7, 8, 9, 1, 2, 3, 4],
  [8, 9, 1, 2, 3, 4, 5, 0, 7],
  [3, 4, 5, 6, 7, 8, 9, 1, 2],
  [6, 7, 8, 9, 1, 2, 3, 4, 5],
  [9, 1, 2, 3, 4, 5, 6, 7, 8]]

/-- Fixed map for `holesGridA`: the non-zero cells are the givens. -/
def holesFixedA : FixedMap := fun r =>
  [[0, 1, 2, 3, 4, 5, 6, 7, 8],
   [0, 1, 3, 4, 5, 6, 7, 8],
   [0, 1, 2, 3, 4, 5, 6, 7, 8],
   [0, 1, 2, 3, 5, 6, 7, 8],
   [0, 1, 2, 3, 4, 5, 6, 7, 8],
   [0, 1, 2, 3, 4, 5, 6, 8],
   [0, 1, 2, 3, 4, 5, 6, 7, 8],
   [0, 1, 2, 3, 4, 5, 6, 7, 8],
   [0, 1, 2, 3, 4, 5, 6, 7, 8]].getD r.val []

/-- `validGridB` with two cells cleared. -/
def holesGridB : Grid := mkGrid [
  [2, 3, 4, 5, 6, 7, 8, 9, 1],
  [5, 6, 7, 8, 9, 1, 2, 3, 4],
  [8, 9, 1, 2, 3, 4, 5, 6, 7],
  [3, 4, 5, 6, 7, 8, 0, 1, 2],
  [6, 7, 8, 9, 1, 2, 3, 4, 5],
  [9, 1, 2, 3, 4, 5, 6, 7, 8],
  [4, 5, 6, 7, 8, 9, 1, 2, 3],
  [7, 8, 9, 1, 2, 3, 4, 5, 6],
  [1, 2, 3, 4, 5, 6, 7, 8, 0]]

/-- Fixed map for `holesGridB`. -/
def holesFixedB : FixedMap := fun r =>
  [[0, 1, 2, 3, 4, 5, 6, 7, 8],
   [0, 1, 2, 3, 4, 5, 6, 7, 8],
   [0, 1, 2, 3, 4, 5, 6, 7, 8],
   [0, 1, 2, 3, 4, 5, 7, 8],
   [0, 1, 2, 3, 4, 5, 6, 7, 8],
   [0, 1, 2, 3, 4, 5, 6, 7, 8],
   [0, 1, 2, 3, 4, 5, 6, 7, 8],
   [0, 1, 2, 3, 4, 5, 6, 7, 8],
   [0, 1, 2, 3, 4, 5, 6, 7]].getD r.val []

/-- The all-zero grid. -/
def zeroGrid : Grid := fun _ _ => 0

/-- Modelled from the spec (§4.1): `ColumnValues(grid, col) → set of
digits` present in that column, excluding 0.  Used only to compare the
code's `current_col` against the spec's reading of it. -/
def ColumnValuesSpec (g : Grid) (c : Fin 9) : Finset Nat :=
  ((Finset.univ : Finset (Fin 9)).image fun r => g r c).filter (· ≠ 0)

/-- In any phase, the invariant gives that fixed cells hold their
input values. -/
theorem inv_fixed_pres {P : Grid} {F : FixedMap} {s : SState}
    (hinv : Inv P F s) :
    ∀ r c : Fin 9, ¬ Editable F r c → s.grid r c = P r c := by
  cases s with
  | mk g ph =>
    cases ph with
    | forward k => exact hinv.2.2.2
    | back k r c => exact hinv.2.2.2.2.2.2
    | refill k r c num => exact hinv.2.2.2.2.2.2.2.2

/-! ## The claims -/

/-- **C6**: for every grid with cell values in the documented range
`0..9`, every cell position, and every start digit in `1..10`,
`pick_input_num` returns a value in `1..10`: the smallest digit
`≥ start` in `1..9` absent from the cell's row, column and box
contents, or 10 when no such digit exists. -/
theorem pick_input_num_spec {g : Grid} {start : Nat} (r c : Fin 9)
    (hg : cellsInRange g) (h1 : 1 ≤ start) (h10 : start ≤ 10) :
    1 ≤ pick_input_num g r c start ∧ pick_input_num g r c start ≤ 10 ∧
    (pick_input_num g r c start ≤ 9 →
      start ≤ pick_input_num g r c start ∧
      pick_input_num g r c start ∉ rowOf g r ∧
      pick_input_num g r c start ∉ current_col g c ∧
      pick_input_num g r c start ∉ current_grid g r c ∧
      (∀ d, start ≤ d → d < pick_input_num g r c start →
        d ∈ rowOf g r ∨ d ∈ current_col g c ∨ d ∈ current_grid g r c)) ∧
    (pick_input_num g r c start = 10 →
      ∀ d, start ≤ d → d ≤ 9 →
        d ∈ rowOf g r ∨ d ∈ current_col g c ∨ d ∈ current_grid g r c) := by
  have h10r : (10 : Nat) ∉ rowOf g r := by
    intro hmem
    obtain ⟨c2, hc2⟩ := mem_rowOf.mp hmem
    have := hg r c2
    omega
  have h10c : (10 : Nat) ∉ current_col g c := by
    intro hmem
    obtain ⟨r2, hr2⟩ := mem_current_col.mp hmem
    have := hg r2 c
    omega
  have h10g : (10 : Nat) ∉ current_grid g r c := by
    intro hmem
    obtain ⟨i, j, hij⟩ := mem_current_grid.mp hmem
    have h2 : (10 : Nat) ≤ 9 := by
      rw [← hij]
      exact hg _ _
    omega
  unfold pick_input_num
  by_cases hlt : start < 10
  · rw [if_pos hlt]
    have hge := pickLoop_ge (rowOf g r) (current_col g c)
      (current_grid g r c) start
    have hnm := pickLoop_not_mem (rowOf g r) (current_col g c)
      (current_grid g r c) start
    have hmin := pickLoop_min (rowOf g r) (current_col g c)
      (current_grid g r c) start
    have hle := pickLoop_le_of_not_mem (rowOf g r) (current_col g c)
      (current_grid g r c) ⟨h10r, h10c, h10g⟩ start (by omega)
    refine ⟨by omega, hle, ?_, ?_⟩
    · intro _
      exact ⟨hge, hnm.1, hnm.2.1, hnm.2.2, hmin⟩
    · intro he d hd hd9
      exact hmin d hd (by omega)
  · rw [if_neg hlt]
    have hs : start = 10 := by omega
    subst hs
    refine ⟨by omega, by omega, ?_, ?_⟩
    · intro h
      exact absurd h (by omega)
    · intro _ d hd hd9
      exact absurd hd9 (by omega)

/-- Witness for C6 at a concrete input: `validGridA`, cell `(0,0)`,
start digit 1. -/
theorem pick_input_num_spec_witness :
    cellsInRange validGridA ∧ 1 ≤ 1 ∧ 1 ≤ 10 ∧
    (1 ≤ pick_input_num validGridA 0 0 1 ∧
     pick_input_num validGridA 0 0 1 ≤ 10 ∧
     (pick_input_num validGridA 0 0 1 ≤ 9 →
       1 ≤ pick_input_num validGridA 0 0 1 ∧
       pick_input_num validGridA 0 0 1 ∉ rowOf validGridA 0 ∧
       pick_input_num validGridA 0 0 1 ∉ current_col validGridA 0 ∧
       pick_input_num validGridA 0 0 1 ∉ current_grid validGridA 0 0 ∧
       (∀ d, 1 ≤ d → d < pick_input_num validGridA 0 0 1 →
         d ∈ rowOf validGridA 0 ∨ d ∈ current_col validGridA 0 ∨
         d ∈ current_grid validGridA 0 0)) ∧
     (pick_input_num validGridA 0 0 1 = 10 →
       ∀ d, 1 ≤ d → d ≤ 9 →
         d ∈ rowOf validGridA 0 ∨ d ∈ current_col validGridA 0 ∨
         d ∈ current_grid validGridA 0 0)) :=
  ⟨by decide, by decide, by decide,
   pick_input_num_spec 0 0 (by decide) (by decide) (by decide)⟩

/-- **C7**: whenever an editable slot exists strictly after
(respectively before) the given position in row-major order,
`find_next_slot` (respectively `find_previous_slot`) succeeds and
returns the closest such slot — it skips exactly the fixed slots in
between and never returns a fixed slot. -/
theorem slot_navigator_spec (F : FixedMap) (r c : Fin 9) :
    ((∃ r3 c3 : Fin 9, Editable F r3 c3 ∧ posOf r c < posOf r3 c3) →
      ∃ r2 c2 : Fin 9, find_next_slot F (r.val : Int) c = .ok (r2, c2) ∧
        Editable F r2 c2 ∧ posOf r c < posOf r2 c2 ∧
        ∀ r3 c3 : Fin 9, posOf r c < posOf r3 c3 → posOf r3 c3 < posOf r2 c2 →
          ¬ Editable F r3 c3) ∧
    ((∃ r3 c3 : Fin 9, Editable F r3 c3 ∧ posOf r3 c3 < posOf r c) →
      ∃ r2 c2 : Fin 9, find_previous_slot F (r.val : Int) c = .ok (r2, c2) ∧
        Editable F r2 c2 ∧ posOf r2 c2 < posOf r c ∧
        ∀ r3 c3 : Fin 9, posOf r2 c2 < posOf r3 c3 → posOf r3 c3 < posOf r c →
          ¬ Editable F r3 c3) := by
  constructor
  · intro ⟨r3, c3, hed3, hlt3⟩
    obtain ⟨out, hout⟩ := find_next_slot_total F (r.val : Int) c
      (by omega)
      ⟨r3, c3, hed3, by unfold posOf at hlt3; omega⟩
    obtain ⟨r2, c2⟩ := out
    obtain ⟨h1, h2, h3⟩ := find_next_slot_ok_pos hout
    exact ⟨r2, c2, hout, h1, h2, h3⟩
  · intro ⟨r3, c3, hed3, hlt3⟩
    obtain ⟨out, hout⟩ := find_previous_slot_total F (r.val : Int) c
      (by have := r.isLt; omega)
      ⟨r3, c3, hed3, by unfold posOf at hlt3; omega⟩
    obtain ⟨r2, c2⟩ := out
    obtain ⟨h1, h2, h3⟩ := find_previous_slot_ok_pos hout
    exact ⟨r2, c2, hout, h1, h2, h3⟩

/-- Fixed map used by the C7 witness: in row 3 the columns `0..4`
hold givens, all other cells are editable. -/
def witnessFixedC7 : FixedMap :=
  fun r => if r.val = 3 then [0, 1, 2, 3, 4] else []

/-- Witness for C7 at a concrete fixed map and position: from
`(3, 2)`, editable slots exist on both sides, so both navigators
succeed and return the closest editable slot. -/
theorem slot_navigator_spec_witness :
    (∃ r2 c2 : Fin 9, find_next_slot witnessFixedC7 ((3 : Fin 9).val : Int) 2 =
        .ok (r2, c2) ∧
      Editable witnessFixedC7 r2 c2 ∧ posOf 3 2 < posOf r2 c2 ∧
      ∀ r3 c3 : Fin 9, posOf 3 2 < posOf r3 c3 → posOf r3 c3 < posOf r2 c2 →
        ¬ Editable witnessFixedC7 r3 c3) ∧
    (∃ r2 c2 : Fin 9, find_previous_slot witnessFixedC7 ((3 : Fin 9).val : Int) 2 =
        .ok (r2, c2) ∧
      Editable witnessFixedC7 r2 c2 ∧ posOf r2 c2 < posOf 3 2 ∧
      ∀ r3 c3 : Fin 9, posOf r2 c2 < posOf r3 c3 → posOf r3 c3 < posOf 3 2 →
        ¬ Editable witnessFixedC7 r3 c3) :=
  ⟨(slot_navigator_spec witnessFixedC7 3 2).1 (by decide),
   (slot_navigator_spec witnessFixedC7 3 2).2 (by decide)⟩

/-- **C8 counterexample**: `current_col` does not return the set of
digits present excluding 0 — on the all-zero grid its output contains
0 while the spec's set is empty. -/
theorem current_col_not_spec_set_cex :
    ¬ ((current_col zeroGrid 0).toFinset = ColumnValuesSpec zeroGrid 0) := by
  decide

/-- **C8 (amended)**: the extraction operations return the list of
all cell values of the row, column or 3×3 box, including zeros and
duplicates; a value is a member exactly when some cell of the unit
holds it, and the box read is the one with top-left corner
`(r − r % 3, c − c % 3)`. -/
theorem extraction_mem_spec (g : Grid) (r c : Fin 9) (v : Nat) :
    (v ∈ rowOf g r ↔ ∃ c2 : Fin 9, g r c2 = v) ∧
    (v ∈ current_col g c ↔ ∃ r2 : Fin 9, g r2 c = v) ∧
    (v ∈ current_grid g r c ↔ ∃ i j : Fin 3,
      g ⟨r.val - r.val % 3 + i.val, by
          have h1 := r.isLt; have h2 := i.isLt; omega⟩
        ⟨c.val - c.val % 3 + j.val, by
          have h1 := c.isLt; have h2 := j.isLt; omega⟩ = v) :=
  ⟨mem_rowOf, mem_current_col, mem_current_grid⟩

/-- **C1 counterexample**: an input satisfying the stated
preconditions (all fixed cells hold `1..9`, the rest `0..9`) on which
`solve_sudoku` returns successfully with a grid that is *not* a valid
solution: the fully-given grid `gridColsDupA`, whose columns repeat a
single digit, is passed through unchanged, and digit 2 never occurs
in column 0. -/
theorem solve_sudoku_success_not_valid_cex :
    cellsInRange gridColsDupA ∧ fixedGivens gridColsDupA allFixed ∧
    solve_sudoku gridColsDupA allFixed 100 = .ok gridColsDupA ∧
    ¬ validSolution gridColsDupA := by
  refine ⟨by decide, by decide, solve_unchanged (by decide) (by omega), ?_⟩
  intro hv
  obtain ⟨-, hcol, -⟩ := hv 2 (by omega) (by omega)
  obtain ⟨r, hr, -⟩ := hcol 0
  have h9 : ∀ r2 : Fin 9, gridColsDupA r2 0 = 9 := by decide
  have := h9 r
  omega

/-- **C1 (amended)**: under the stated preconditions *and* the added
requirement that no row, column or box of the input already repeats a
digit `1..9`, whenever `solve_sudoku` returns successfully the
resulting grid contains each digit `1..9` exactly once in every row,
column and box, and every fixed cell retains its input value. -/
theorem solve_sudoku_sound {P G : Grid} {F : FixedMap} {fuel : Nat}
    (hpre1 : cellsInRange P) (hpre2 : fixedGivens P F)
    (hcons : consistent P) (hok : solve_sudoku P F fuel = .ok G) :
    validSolution G ∧ ∀ r c : Fin 9, ¬ Editable F r c → G r c = P r c := by
  unfold solve_sudoku at hok
  split at hok
  · exact absurd hok (by simp)
  · rename_i s heq
    simp only [Except.ok.injEq] at hok
    subst hok
    obtain ⟨hinv, hdone⟩ :=
      runAux_inv hpre1 hpre2 fuel _ s (inv_init P F) heq
    have hcons2 : consistent s.grid := runAux_consistent fuel _ s hcons heq
    obtain ⟨hall1, hfix⟩ := inv_done hinv hdone
    have hall : ∀ r c : Fin 9, 1 ≤ s.grid r c ∧ s.grid r c ≤ 9 := by
      intro r c
      by_cases hed : Editable F r c
      · exact hall1 r c hed
      · rw [hfix r c hed]
        exact ⟨hpre2 r c hed, hpre1 r c⟩
    exact ⟨validSolution_of_consistent hall hcons2, hfix⟩

/-- Witness for the amended C1 at a concrete input: the fully-given
valid grid `validGridA` is returned unchanged and is a valid
solution. -/
theorem solve_sudoku_sound_witness :
    cellsInRange validGridA ∧ fixedGivens validGridA allFixed ∧
    consistent validGridA ∧
    solve_sudoku validGridA allFixed 100 = .ok validGridA ∧
    validSolution validGridA ∧
    (∀ r c : Fin 9, ¬ Editable allFixed r c →
      validGridA r c = validGridA r c) :=
  ⟨by decide, by decide, by decide, rfl,
   (@solve_sudoku_sound validGridA validGridA allFixed 100
     (by decide) (by decide) (by decide) rfl).1,
   (@solve_sudoku_sound validGridA validGridA allFixed 100
     (by decide) (by decide) (by decide) rfl).2⟩

/-- **C2**: from any input satisfying the preconditions, after any
number of machine steps (each step is one iteration of one of the
engine's loops) every fixed cell still holds its input value — the
engine never writes to a fixed cell, at every intermediate state of
the run. -/
theorem solve_sudoku_never_writes_fixed {P : Grid} {F : FixedMap}
    (hpre1 : cellsInRange P) (hpre2 : fixedGivens P F) :
    ∀ (n : Nat) (s : SState), stepN F n ⟨P, .forward 0⟩ = .ok s →
      ∀ r c : Fin 9, ¬ Editable F r c → s.grid r c = P r c := by
  intro n s h r c hfix
  exact inv_fixed_pres (inv_stepN hpre1 hpre2 n _ s (inv_init P F) h) r c hfix

set_option maxRecDepth 8000 in
/-- Witness for C2 at a concrete input: after 90 steps on
`holesGridA` (a run that fills three cells), the fixed cells are
unchanged. -/
theorem solve_sudoku_never_writes_fixed_witness :
    ∃ s : SState, stepN holesFixedA 90 ⟨holesGridA, .forward 0⟩ = .ok s ∧
      ∀ r c : Fin 9, ¬ Editable holesFixedA r c →
        s.grid r c = holesGridA r c :=
  ⟨_, rfl,
   solve_sudoku_never_writes_fixed (by decide) (by decide) 90 _ rfl⟩

/-- **C3**: the code performs no malformed-input check.  On a
fully-given grid whose givens already violate column uniqueness
(satisfying the interface preconditions), `solve_sudoku` does not
reject the input: it runs its scan and returns the grid as a success,
with the duplicates still in place.  (The spec requires a
`MalformedInput` error detected up front; no such error exists in the
code.) -/
theorem solve_sudoku_no_malformed_check :
    cellsInRange gridColsDupB ∧ fixedGivens gridColsDupB allFixed ∧
    ¬ consistent gridColsDupB ∧
    solve_sudoku gridColsDupB allFixed 100 = .ok gridColsDupB := by
  refine ⟨by decide, by decide, by decide,
    solve_unchanged (by decide) (by omega)⟩

/-- **C4**: the code does not return an `Unsolvable` result.  On an
unsolvable input satisfying the preconditions (cell `(0,0)` has no
candidate), backtracking walks before the first cell and the engine
raises `KeyError` on the fixed-cell dictionary with row key `-1`
instead of reporting failure. -/
theorem solve_sudoku_unsolvable_keyerror :
    cellsInRange unsolvGridA ∧ fixedGivens unsolvGridA unsolvFixedA ∧
    solve_sudoku unsolvGridA unsolvFixedA 100 = .error (.keyError (-1)) :=
  ⟨by decide, by decide, rfl⟩

/-- **C5**: for every call of the engine that returns a grid to the
caller, under the interface preconditions, no cell of the returned
grid holds the exhausted sentinel 10 or any value greater than 9. -/
theorem solve_sudoku_no_sentinel_leak {P G : Grid} {F : FixedMap}
    {fuel : Nat} (hpre1 : cellsInRange P) (hpre2 : fixedGivens P F)
    (hok : solve_sudoku P F fuel = .ok G) :
    ∀ r c : Fin 9, G r c ≤ 9 := by
  unfold solve_sudoku at hok
  split at hok
  · exact absurd hok (by simp)
  · rename_i s heq
    simp only [Except.ok.injEq] at hok
    subst hok
    obtain ⟨hinv, hdone⟩ :=
      runAux_inv hpre1 hpre2 fuel _ s (inv_init P F) heq
    obtain ⟨hall1, hfix⟩ := inv_done hinv hdone
    intro r c
    by_cases hed : Editable F r c
    · exact (hall1 r c hed).2
    · rw [hfix r c hed]
      exact hpre1 r c

set_option maxRecDepth 8000 in
/-- Witness for C5 at a concrete input: the run on `holesGridB`
(which fills two cells) returns a grid with no value above 9. -/
theorem solve_sudoku_no_sentinel_leak_witness :
    ∃ G, solve_sudoku holesGridB holesFixedB 100 = .ok G ∧
      ∀ r c : Fin 9, G r c ≤ 9 :=
  ⟨_, rfl, @solve_sudoku_no_sentinel_leak holesGridB _ holesFixedB 100
    (by decide) (by decide) rfl⟩

/-- **C9**: a grid that is already a complete valid Sudoku is
returned unchanged, for any fixed map (with enough fuel for the 81
forward iterations plus the final check). -/
theorem solve_sudoku_idempotent {P : Grid} (F : FixedMap) {fuel : Nat}
    (hall : ∀ r c : Fin 9, 1 ≤ P r c ∧ P r c ≤ 9)
    (_hvalid : validSolution P) (hfuel : 82 ≤ fuel) :
    solve_sudoku P F fuel = .ok P :=
  solve_unchanged
    (fun r c => ⟨by have := (hall r c).1; omega, (hall r c).2⟩) hfuel

/-- Witness for C9 at a concrete input: the complete valid grid
`validGridB` with no fixed cells is returned unchanged. -/
theorem solve_sudoku_idempotent_witness :
    solve_sudoku validGridB noFixed 100 = .ok validGridB :=
  solve_sudoku_idempotent noFixed (by decide)
    (validSolution_of_consistent (by decide) (by decide)) (by omega)

/-- **C10 counterexample**: it is *not* the case that, under the
stated preconditions, the fixed-cell lookups always use a row key in
`0..8`: on `crashGridA` the engine reaches the out-of-range/missing
key error branch (row key 9), recorded as a `KeyError`. -/
theorem fixed_lookup_unreachable_cex :
    ¬ (∀ (P : Grid) (F : FixedMap) (fuel : Nat), cellsInRange P →
        fixedGivens P F → ∀ e : Int,
          solve_sudoku P F fuel ≠ .error (.keyError e)) := by
  intro h
  exact h crashGridA crashFixedA 200 (by decide) (by decide) 9
    (by set_option maxRecDepth 4000 in exact rfl)

/-- **C10 (amended)**: both missing-key branches are reachable from
inputs satisfying the preconditions: the re-fill loop can ask for the
slot after `(8,8)` (`find_next_slot` reaches row key 9, on
`crashGridA`, where backtracking in the last row succeeds and the
re-fill loop has just written `(8,8)`), and the backtracking loop can
ask for the slot before `(0,0)` (`find_previous_slot` reaches row key
−1, on `unsolvGridB`). -/
theorem fixed_lookup_error_reachable :
    (cellsInRange crashGridA ∧ fixedGivens crashGridA crashFixedA ∧
      solve_sudoku crashGridA crashFixedA 200 = .error (.keyError 9)) ∧
    (cellsInRange unsolvGridB ∧ fixedGivens unsolvGridB unsolvFixedB ∧
      solve_sudoku unsolvGridB unsolvFixedB 100 = .error (.keyError (-1))) :=
  ⟨⟨by decide, by decide, by set_option maxRecDepth 4000 in exact rfl⟩,
   ⟨by decide, by decide, rfl⟩⟩

end Sudoku
